import Mathlib

/-!
Verification of the pundle babel loader (src/unnamed/part_000): the per-file
source transform that collects static imports, call-style requires and
code-split chunks from a parsed syntax tree, rewrites each discovered raw
request to the string form of its resolved identifier, and substitutes
configured replacement variables.

The syntax tree is a shallow embedding of the babel AST restricted to the
node kinds the loader inspects (string literals, identifiers, member
expressions, call expressions, array expressions, function expressions
plus import declarations, expression statements, variable declarations).
The traversal functions below mirror the single babel-traverse pass of the
loader: visitor order (the visitor acts on a node first, then the walk
descends into the possibly mutated children, as babel-traverse does for
in-place mutations and requeued replacements), scope bindings carried as the
list of names bound in enclosing scopes, and the separate nested pass over a
require.ensure callback body.
-/

set_option maxHeartbeats 1000000

namespace Pundle

/-- A JavaScript value as it can sit in a babel node's `value` slot: the
string of a string literal, a number, or `undefined` (the result of reading
`.value` off a node kind that has none, such as an Identifier). -/
inductive JSValue where
  | str (s : String)
  | num (n : Nat)
  | undefined
  deriving DecidableEq, Repr

mutual

/-- Babel expression nodes the loader inspects.  `parsedLit` stands for the
expression tree the replacement engine parses from a configured replacement
source string (an opaque literal expression; see getParsedReplacement). -/
inductive Node where
  | stringLit (value : JSValue)
  | ident (name : String)
  | member (obj : Node) (prop : Node)
  | call (callee : Node) (args : List Node)
  | arrayExpr (elements : List Node)
  | funcExpr (params : List String) (body : List Stmt)
  | parsedLit (source : String)

/-- Statements: import declarations (their specifiers carry no
claim-relevant behaviour and are omitted; the source field is the
specifier literal), expression statements, and variable declarations
(declared names plus initializer expressions). -/
inductive Stmt where
  | importDecl (source : Node)
  | exprStmt (e : Node)
  | varDecl (names : List String) (inits : List Node)

end

mutual

/-- Structural size of an expression node, ignoring all string and value
payloads.  The loader's mutations only overwrite `value` slots, so they
preserve this measure; it justifies termination of the traversal, which
descends into mutated children exactly as babel-traverse does. -/
def nsizeN : Node → Nat
  | .stringLit _ => 1
  | .ident _ => 1
  | .member o p => 1 + nsizeN o + nsizeN p
  | .call c args => 1 + nsizeN c + nsizeNL args
  | .arrayExpr els => 1 + nsizeNL els
  | .funcExpr _ body => 1 + nsizeSL body
  | .parsedLit _ => 1

/-- Structural size of a list of expression nodes. -/
def nsizeNL : List Node → Nat
  | [] => 0
  | e :: es => 1 + nsizeN e + nsizeNL es

/-- Structural size of a statement. -/
def nsizeS : Stmt → Nat
  | .importDecl s => 1 + nsizeN s
  | .exprStmt e => 1 + nsizeN e
  | .varDecl _ inits => 1 + nsizeNL inits

/-- Structural size of a list of statements. -/
def nsizeSL : List Stmt → Nat
  | [] => 0
  | s :: ss => 1 + nsizeS s + nsizeSL ss

end

/-- One dependency reference discovered in the tree, as returned by the
external resolution capability `this.getImportRequest(rawValue, filePath)`:
the raw value passed in and the assigned opaque identifier.  (The
requesting file's path, also passed in the source, carries no
claim-relevant behaviour and is not modelled.) -/
structure FileImport where
  request : JSValue
  id : Nat
  deriving DecidableEq, Repr

/-- One code-split chunk descriptor as processSplit builds it:
`{ name: chunkName, entry: [], imports: [] }`, the name being whatever
JavaScript value the third argument's `value` slot holds (a string in
every parser-produced tree) or the string form of a fresh unique id. -/
structure FileChunk where
  name : JSValue
  entry : List FileImport
  imports : List FileImport
  deriving DecidableEq, Repr

/-- The loader's configuration and external capabilities:
`replaceVariables` (name to replacement-source table, looked up with
hasOwnProperty, modelled as an association list) and the resolution
capability, modelled as the function assigning an identifier to a raw
request value. -/
structure Ctx where
  replaceVariables : List (String × String)
  resolve : JSValue → Nat

/-- The mutable collection state of one loader invocation: the `imports`
and `chunks` arrays, plus the counter behind `this.getNextUniqueID()`. -/
structure St where
  imports : List FileImport
  chunks : List FileChunk
  uid : Nat
  deriving DecidableEq, Repr

/-- The error a JavaScript run of the loader can throw from inside the
traversal: reading a property of `undefined`
(`newPath.node.arguments[0].value` with no argument). -/
inductive JsError where
  | typeError
  deriving DecidableEq, Repr

/-- Modelled from the spec: `getName` of src/helpers (the helpers module is
not among the repository files given).  Computes a node's fully-qualified
dotted name by walking member-expression chains: an identifier yields its
name, a member expression the names of its object and property joined with
a dot (spec 4.1: "compute its fully-qualified callee name by walking
member-expression chains (e.g. a.b.c -> \"a.b.c\")"); other node kinds
have no name. -/
def getName : Node → String
  | .ident name => name
  | .member obj prop => getName obj ++ "." ++ getName prop
  | _ => ""

/-- Modelled from the spec: `getParsedReplacement` of src/helpers (not
among the repository files given).  Parses the configured replacement
source string into a literal expression tree (spec 4.4: "replaced with a
freshly parsed literal expression tree built from the configured
replacement source string"); the parsed tree is kept opaque. -/
def getParsedReplacement (source : String) : Node :=
  .parsedLit source

/-- The `value` slot of a node: the value of a string literal, `undefined`
for every other node kind (reading `.value` off an Identifier or a nested
call yields `undefined` in JavaScript). -/
def getValue : Node → JSValue
  | .stringLit v => v
  | _ => .undefined

/-- Writing `node.value = v`: overwrites a string literal's value.  On any
other node kind the assignment adds an expando property that neither the
traversal nor the babel code generator ever reads (an Identifier prints
its `name`, a call its parts), so the node is modelled unchanged. -/
def setValue (n : Node) (v : JSValue) : Node :=
  match n with
  | .stringLit _ => .stringLit v
  | n => n

/-- A babel node's `type` string, as tested by
`parameter.type !== (name === 'require.ensure' ? 'ArrayExpression' : 'StringLiteral')`
and `path.node.arguments[1].type === 'FunctionExpression'`.  A parsed
replacement stands for some literal node type (BooleanLiteral,
NumericLiteral, ...), never StringLiteral/ArrayExpression/FunctionExpression
as produced here. -/
def nodeType : Node → String
  | .stringLit _ => "StringLiteral"
  | .ident _ => "Identifier"
  | .member _ _ => "MemberExpression"
  | .call _ _ => "CallExpression"
  | .arrayExpr _ => "ArrayExpression"
  | .funcExpr _ _ => "FunctionExpression"
  | .parsedLit _ => "ParsedLiteral"

/-- RESOLVE_NAMES of the loader. -/
def RESOLVE_NAMES : List String :=
  ["require", "require.ensure", "require.resolve", "module.hot.accept", "module.hot.decline"]

/-- RESOLVE_NAMES_CHUNK of the loader. -/
def RESOLVE_NAMES_CHUNK : List String :=
  ["require.ensure"]

/-- RESOLVE_NAMES_SENSITIVE of the loader. -/
def RESOLVE_NAMES_SENSITIVE : List String :=
  ["require", "require.resolve"]

/-- `{}.hasOwnProperty.call(table, name)` followed by `table[name]`:
association-list lookup in the replacement table. -/
def lookupVar (table : List (String × String)) (name : String) : Option String :=
  (table.find? (fun p => p.fst == name)).map Prod.snd

/-- `this.getImportRequest(value, file.filePath)`: the resolution
capability turns a raw request value into a FileImport carrying its
assigned identifier. -/
def mkRequest (ctx : Ctx) (v : JSValue) : FileImport :=
  { request := v, id := ctx.resolve v }

/-- processResolve of the loader: obtain a request for the node's value,
push it onto `imports`, and overwrite the node's value with
`request.id.toString()` (the string form of the identifier). -/
def processResolve (ctx : Ctx) (node : Node) (st : St) : Node × St :=
  let request := mkRequest ctx (getValue node)
  (setValue node (.str (toString request.id)),
   { st with imports := st.imports ++ [request] })

/-- processReplaceable of the loader, on an Identifier or MemberExpression
path: on a replacement-table hit the node is replaced with the parsed
replacement, otherwise left as is. -/
def processReplaceable (ctx : Ctx) (n : Node) : Node :=
  match lookupVar ctx.replaceVariables (getName n) with
  | some source => getParsedReplacement source
  | none => n

/-- `this.getNextUniqueID()`. Modelled from the spec: the identifier
allocator is external to the given files; spec 4.3 calls for "a freshly
minted process-unique token (monotonic counter or equivalent)", so it is
the monotonic counter carried in St. -/
def getNextUniqueID (st : St) : Nat × St :=
  (st.uid, { st with uid := st.uid + 1 })

/-- `newPath.node.callee.name`: the `name` slot of a callee node — a
string only for identifiers, `undefined` (here: none) for member
expressions and every other callee kind. -/
def calleeName : Node → Option String
  | .ident name => some name
  | _ => none

/-- The body of the nested CallExpression visitor installed by processSplit
over a require.ensure callback: when the callee's name equals the callback's
first parameter name, read `arguments[0].value` (throwing a TypeError when
there is no argument, as `undefined.value` does), resolve it, push the
request onto the chunk's nested import list `acc`, and write the string
form of the identifier back into `arguments[0].value`. -/
def nestedAction (ctx : Ctx) (aliasName : String) (callee : Node) (args : List Node)
    (acc : List FileImport) : Except JsError (List Node × List FileImport) :=
  if calleeName callee == some aliasName then
    match args with
    | [] => .error .typeError
    | a :: rest =>
      let request := mkRequest ctx (getValue a)
      .ok (setValue a (.str (toString request.id)) :: rest, acc ++ [request])
  else
    .ok (args, acc)

/-- Overwriting a value slot does not change a node's structural size. -/
theorem setValue_nsize (n : Node) (v : JSValue) : nsizeN (setValue n v) = nsizeN n := by
  cases n <;> simp [setValue, nsizeN]

/-- The nested visitor's action preserves the structural size of the
argument list: it only overwrites a value slot. -/
theorem nestedAction_nsize {ctx : Ctx} {aliasName : String} {callee : Node}
    {args args' : List Node} {acc acc' : List FileImport}
    (h : nestedAction ctx aliasName callee args acc = .ok (args', acc')) :
    nsizeNL args' = nsizeNL args := by
  unfold nestedAction at h
  split at h
  · cases args with
    | nil => exact absurd h (by simp)
    | cons a rest =>
      simp only [Except.ok.injEq, Prod.mk.injEq] at h
      rw [← h.1]
      simp [nsizeNL, setValue_nsize]
  · simp only [Except.ok.injEq, Prod.mk.injEq] at h
    rw [← h.1]

mutual

/-- The nested pass over a require.ensure callback,
`path.scope.traverse(path.node.arguments[1], { CallExpression: ... })`:
a depth-first walk whose only visitor handles call expressions — the
action runs on the node first, then the walk descends into the possibly
mutated children.  `acc` is the chunk's nested import list being built. -/
def nestedVisitN (ctx : Ctx) (aliasName : String) (n : Node) (acc : List FileImport) :
    Except JsError (Node × List FileImport) :=
  match n with
  | .call callee args =>
    match hact : nestedAction ctx aliasName callee args acc with
    | .error e => .error e
    | .ok (args₁, acc₁) =>
      match nestedVisitN ctx aliasName callee acc₁ with
      | .error e => .error e
      | .ok (callee', acc₂) =>
        match nestedVisitNL ctx aliasName args₁ acc₂ with
        | .error e => .error e
        | .ok (args', acc₃) => .ok (.call callee' args', acc₃)
  | .member obj prop =>
    match nestedVisitN ctx aliasName obj acc with
    | .error e => .error e
    | .ok (obj', acc₁) =>
      match nestedVisitN ctx aliasName prop acc₁ with
      | .error e => .error e
      | .ok (prop', acc₂) => .ok (.member obj' prop', acc₂)
  | .arrayExpr els =>
    match nestedVisitNL ctx aliasName els acc with
    | .error e => .error e
    | .ok (els', acc₁) => .ok (.arrayExpr els', acc₁)
  | .funcExpr params body =>
    match nestedVisitSL ctx aliasName body acc with
    | .error e => .error e
    | .ok (body', acc₁) => .ok (.funcExpr params body', acc₁)
  | .stringLit v => .ok (.stringLit v, acc)
  | .ident name => .ok (.ident name, acc)
  | .parsedLit s => .ok (.parsedLit s, acc)
termination_by nsizeN n
decreasing_by
all_goals simp only [nsizeN, nsizeNL, nsizeS, nsizeSL]
all_goals try omega
all_goals (have hsz := nestedAction_nsize hact; omega)

/-- The nested pass over a list of sibling expression nodes. -/
def nestedVisitNL (ctx : Ctx) (aliasName : String) (ns : List Node) (acc : List FileImport) :
    Except JsError (List Node × List FileImport) :=
  match ns with
  | [] => .ok ([], acc)
  | n :: rest =>
    match nestedVisitN ctx aliasName n acc with
    | .error e => .error e
    | .ok (n', acc₁) =>
      match nestedVisitNL ctx aliasName rest acc₁ with
      | .error e => .error e
      | .ok (rest', acc₂) => .ok (n' :: rest', acc₂)
termination_by nsizeNL ns
decreasing_by
all_goals try subst_vars
all_goals simp only [nsizeN, nsizeNL, nsizeS, nsizeSL]
all_goals omega

/-- The nested pass over one statement of the callback body. -/
def nestedVisitS (ctx : Ctx) (aliasName : String) (s : Stmt) (acc : List FileImport) :
    Except JsError (Stmt × List FileImport) :=
  match s with
  | .importDecl source =>
    match nestedVisitN ctx aliasName source acc with
    | .error e => .error e
    | .ok (source', acc₁) => .ok (.importDecl source', acc₁)
  | .exprStmt e =>
    match nestedVisitN ctx aliasName e acc with
    | .error e => .error e
    | .ok (e', acc₁) => .ok (.exprStmt e', acc₁)
  | .varDecl names inits =>
    match nestedVisitNL ctx aliasName inits acc with
    | .error e => .error e
    | .ok (inits', acc₁) => .ok (.varDecl names inits', acc₁)
termination_by nsizeS s
decreasing_by
all_goals try subst_vars
all_goals simp only [nsizeN, nsizeNL, nsizeS, nsizeSL]
all_goals omega

/-- The nested pass over the statements of the callback body. -/
def nestedVisitSL (ctx : Ctx) (aliasName : String) (ss : List Stmt) (acc : List FileImport) :
    Except JsError (List Stmt × List FileImport) :=
  match ss with
  | [] => .ok ([], acc)
  | s :: rest =>
    match nestedVisitS ctx aliasName s acc with
    | .error e => .error e
    | .ok (s', acc₁) =>
      match nestedVisitSL ctx aliasName rest acc₁ with
      | .error e => .error e
      | .ok (rest', acc₂) => .ok (s' :: rest', acc₂)
termination_by nsizeSL ss
decreasing_by
all_goals try subst_vars
all_goals simp only [nsizeN, nsizeNL, nsizeS, nsizeSL]
all_goals omega

end

mutual

/-- The nested pass only overwrites value slots: node sizes are preserved. -/
theorem nestedVisitN_nsize (ctx : Ctx) (aliasName : String) (n : Node)
    (acc : List FileImport) (n' : Node) (acc' : List FileImport)
    (h : nestedVisitN ctx aliasName n acc = .ok (n', acc')) :
    nsizeN n' = nsizeN n := by
  cases n with
  | call callee args =>
    simp only [nestedVisitN] at h
    split at h
    · exact absurd h (by simp)
    · rename_i args₁ acc₁ hact
      split at h
      · exact absurd h (by simp)
      · rename_i callee' acc₂ hcallee
        split at h
        · exact absurd h (by simp)
        · rename_i args' acc₃ hargs
          simp only [Except.ok.injEq, Prod.mk.injEq] at h
          obtain ⟨h1, -⟩ := h
          subst h1
          have e3 := nestedAction_nsize hact
          have e1 := nestedVisitN_nsize ctx aliasName callee acc₁ callee' acc₂ hcallee
          have e2 := nestedVisitNL_nsize ctx aliasName args₁ acc₂ args' acc₃ hargs
          simp only [nsizeN]
          omega
  | member obj prop =>
    simp only [nestedVisitN] at h
    split at h
    · exact absurd h (by simp)
    · rename_i obj' acc₁ hobj
      split at h
      · exact absurd h (by simp)
      · rename_i prop' acc₂ hprop
        simp only [Except.ok.injEq, Prod.mk.injEq] at h
        obtain ⟨h1, -⟩ := h
        subst h1
        have e1 := nestedVisitN_nsize ctx aliasName obj acc obj' acc₁ hobj
        have e2 := nestedVisitN_nsize ctx aliasName prop acc₁ prop' acc₂ hprop
        simp only [nsizeN]
        omega
  | arrayExpr els =>
    simp only [nestedVisitN] at h
    split at h
    · exact absurd h (by simp)
    · rename_i els' acc₁ hels
      simp only [Except.ok.injEq, Prod.mk.injEq] at h
      obtain ⟨h1, -⟩ := h
      subst h1
      have e1 := nestedVisitNL_nsize ctx aliasName els acc els' acc₁ hels
      simp only [nsizeN]
      omega
  | funcExpr params body =>
    simp only [nestedVisitN] at h
    split at h
    · exact absurd h (by simp)
    · rename_i body' acc₁ hbody
      simp only [Except.ok.injEq, Prod.mk.injEq] at h
      obtain ⟨h1, -⟩ := h
      subst h1
      have e1 := nestedVisitSL_nsize ctx aliasName body acc body' acc₁ hbody
      simp only [nsizeN]
      omega
  | stringLit v =>
    simp only [nestedVisitN, Except.ok.injEq, Prod.mk.injEq] at h
    obtain ⟨h1, -⟩ := h
    subst h1
    rfl
  | ident name =>
    simp only [nestedVisitN, Except.ok.injEq, Prod.mk.injEq] at h
    obtain ⟨h1, -⟩ := h
    subst h1
    rfl
  | parsedLit s =>
    simp only [nestedVisitN, Except.ok.injEq, Prod.mk.injEq] at h
    obtain ⟨h1, -⟩ := h
    subst h1
    rfl
termination_by nsizeN n
decreasing_by
all_goals try subst_vars
all_goals simp only [nsizeN, nsizeNL, nsizeS, nsizeSL]
all_goals omega

/-- The nested pass preserves the sizes of sibling lists. -/
theorem nestedVisitNL_nsize (ctx : Ctx) (aliasName : String) (ns : List Node)
    (acc : List FileImport) (ns' : List Node) (acc' : List FileImport)
    (h : nestedVisitNL ctx aliasName ns acc = .ok (ns', acc')) :
    nsizeNL ns' = nsizeNL ns := by
  cases ns with
  | nil =>
    simp only [nestedVisitNL, Except.ok.injEq, Prod.mk.injEq] at h
    obtain ⟨h1, -⟩ := h
    subst h1
    rfl
  | cons n rest =>
    simp only [nestedVisitNL] at h
    split at h
    · exact absurd h (by simp)
    · rename_i n' acc₁ hn
      split at h
      · exact absurd h (by simp)
      · rename_i rest' acc₂ hrest
        simp only [Except.ok.injEq, Prod.mk.injEq] at h
        obtain ⟨h1, -⟩ := h
        subst h1
        have e1 := nestedVisitN_nsize ctx aliasName n acc n' acc₁ hn
        have e2 := nestedVisitNL_nsize ctx aliasName rest acc₁ rest' acc₂ hrest
        simp only [nsizeNL]
        omega
termination_by nsizeNL ns
decreasing_by
all_goals try subst_vars
all_goals simp only [nsizeN, nsizeNL, nsizeS, nsizeSL]
all_goals omega

/-- The nested pass preserves statement sizes. -/
theorem nestedVisitS_nsize (ctx : Ctx) (aliasName : String) (s : Stmt)
    (acc : List FileImport) (s' : Stmt) (acc' : List FileImport)
    (h : nestedVisitS ctx aliasName s acc = .ok (s', acc')) :
    nsizeS s' = nsizeS s := by
  cases s with
  | importDecl source =>
    simp only [nestedVisitS] at h
    split at h
    · exact absurd h (by simp)
    · rename_i source' acc₁ hs
      simp only [Except.ok.injEq, Prod.mk.injEq] at h
      obtain ⟨h1, -⟩ := h
      subst h1
      have e1 := nestedVisitN_nsize ctx aliasName source acc source' acc₁ hs
      simp only [nsizeS]
      omega
  | exprStmt e =>
    simp only [nestedVisitS] at h
    split at h
    · exact absurd h (by simp)
    · rename_i e' acc₁ hs
      simp only [Except.ok.injEq, Prod.mk.injEq] at h
      obtain ⟨h1, -⟩ := h
      subst h1
      have e1 := nestedVisitN_nsize ctx aliasName e acc e' acc₁ hs
      simp only [nsizeS]
      omega
  | varDecl names inits =>
    simp only [nestedVisitS] at h
    split at h
    · exact absurd h (by simp)
    · rename_i inits' acc₁ hs
      simp only [Except.ok.injEq, Prod.mk.injEq] at h
      obtain ⟨h1, -⟩ := h
      subst h1
      have e1 := nestedVisitNL_nsize ctx aliasName inits acc inits' acc₁ hs
      simp only [nsizeS]
      omega
termination_by nsizeS s
decreasing_by
all_goals try subst_vars
all_goals simp only [nsizeN, nsizeNL, nsizeS, nsizeSL]
all_goals omega

/-- The nested pass preserves the sizes of statement lists. -/
theorem nestedVisitSL_nsize (ctx : Ctx) (aliasName : String) (ss : List Stmt)
    (acc : List FileImport) (ss' : List Stmt) (acc' : List FileImport)
    (h : nestedVisitSL ctx aliasName ss acc = .ok (ss', acc')) :
    nsizeSL ss' = nsizeSL ss := by
  cases ss with
  | nil =>
    simp only [nestedVisitSL, Except.ok.injEq, Prod.mk.injEq] at h
    obtain ⟨h1, -⟩ := h
    subst h1
    rfl
  | cons s rest =>
    simp only [nestedVisitSL] at h
    split at h
    · exact absurd h (by simp)
    · rename_i s' acc₁ hs
      split at h
      · exact absurd h (by simp)
      · rename_i rest' acc₂ hrest
        simp only [Except.ok.injEq, Prod.mk.injEq] at h
        obtain ⟨h1, -⟩ := h
        subst h1
        have e1 := nestedVisitS_nsize ctx aliasName s acc s' acc₁ hs
        have e2 := nestedVisitSL_nsize ctx aliasName rest acc₁ rest' acc₂ hrest
        simp only [nsizeSL]
        omega
termination_by nsizeSL ss
decreasing_by
all_goals try subst_vars
all_goals simp only [nsizeN, nsizeNL, nsizeS, nsizeSL]
all_goals omega

end

/-- The chunk-name ternary of processSplit,
`path.node.arguments[2] && path.node.arguments[2].type === 'StringLiteral'
? path.node.arguments[2].value : this.getNextUniqueID().toString()`;
`rest.get? 1` is `arguments[2]` when the arguments are the array followed
by `rest`.  Returns the name and the state (the unique-id counter is
consumed only in the fallback branch). -/
def splitChunkName (rest : List Node) (st : St) : JSValue × St :=
  match rest.get? 1 with
  | some (.stringLit v) => (v, st)
  | _ =>
    let uidAndSt := getNextUniqueID st
    (.str (toString uidAndSt.1), uidAndSt.2)

/-- processSplit of the loader, given the require.ensure call's argument
list (the caller has checked `arguments[0]` is an ArrayExpression; on any
other shape `arguments[0].elements.forEach` would throw in JavaScript):
1. chunk name via splitChunkName;
2. for each array element in order, a request for `element.value` is
   pushed onto the chunk's entry list and `element.value` is overwritten
   with `request.id.toString()` (rendered as the two maps an in-order
   forEach with push amounts to);
3. when `arguments[1]` is a FunctionExpression with at least one
   parameter, the nested pass runs over its body with the first
   parameter's name as the require alias, filling the chunk's
   nested import list;
4. the finished chunk is pushed onto `chunks`. -/
def processSplit (ctx : Ctx) (args : List Node) (st : St) : Except JsError (List Node × St) :=
  match args with
  | .arrayExpr elements :: rest =>
    let nameAndSt := splitChunkName rest st
    let chunkName := nameAndSt.1
    let st₁ := nameAndSt.2
    let elements' := elements.map (fun el => setValue el (.str (toString (mkRequest ctx (getValue el)).id)))
    let entry := elements.map (fun el => mkRequest ctx (getValue el))
    match rest with
    | .funcExpr (p :: ps) body :: r2 =>
      match nestedVisitSL ctx p body [] with
      | .error e => .error e
      | .ok (body', nestedImports) =>
        .ok (.arrayExpr elements' :: .funcExpr (p :: ps) body' :: r2,
             { st₁ with chunks := st₁.chunks ++ [{ name := chunkName, entry := entry, imports := nestedImports }] })
    | _ =>
      .ok (.arrayExpr elements' :: rest,
           { st₁ with chunks := st₁.chunks ++ [{ name := chunkName, entry := entry, imports := [] }] })
  | _ => .error .typeError

/-- The expected node type of the resolvable first argument:
`name === 'require.ensure' ? 'ArrayExpression' : 'StringLiteral'`. -/
def expectedArgType (name : String) : String :=
  if name == "require.ensure" then "ArrayExpression" else "StringLiteral"

/-- The CallExpression visitor of the loader: flatten the callee name,
test membership in RESOLVE_NAMES, check the first argument's shape, apply
the scope guard for the sensitive names, and dispatch to processSplit
(chunk names) or processResolve (the rest).  `env` is the list of names
bound in scopes enclosing the call site (`path.scope.hasBinding`). -/
def callAction (ctx : Ctx) (env : List String) (callee : Node) (args : List Node) (st : St) :
    Except JsError (List Node × St) :=
  if !(RESOLVE_NAMES.contains (getName callee)) then
    .ok (args, st)
  else
    match args with
    | [] => .ok (args, st)
    | parameter :: rest =>
      if !(nodeType parameter == expectedArgType (getName callee)) then
        .ok (parameter :: rest, st)
      else if RESOLVE_NAMES_SENSITIVE.contains (getName callee) && env.contains "require" then
        .ok (parameter :: rest, st)
      else if RESOLVE_NAMES_CHUNK.contains (getName callee) then
        processSplit ctx (parameter :: rest) st
      else
        let resolved := processResolve ctx parameter st
        .ok (resolved.1 :: rest, resolved.2)

/-- Mapping setValue over a list preserves its structural size. -/
theorem map_setValue_nsize (f : Node → JSValue) (l : List Node) :
    nsizeNL (l.map (fun el => setValue el (f el))) = nsizeNL l := by
  induction l with
  | nil => rfl
  | cons x xs ih => simp [nsizeNL, setValue_nsize, ih]

/-- processSplit only overwrites value slots of the argument list. -/
theorem processSplit_nsize {ctx : Ctx} {args args' : List Node} {st st' : St}
    (h : processSplit ctx args st = .ok (args', st')) :
    nsizeNL args' = nsizeNL args := by
  unfold processSplit at h
  repeat' split at h
  all_goals simp at h
  all_goals try (obtain ⟨h1, -⟩ := h; (first | subst h1 | rw [h1]))
  all_goals simp only [nsizeNL, nsizeN, map_setValue_nsize]
  all_goals try omega
  all_goals (rename_i hbody9; have e9 := nestedVisitSL_nsize _ _ _ _ _ _ hbody9; omega)

/-- The CallExpression visitor only overwrites value slots of the
argument list. -/
theorem callAction_nsize {ctx : Ctx} {env : List String} {callee : Node}
    {args args' : List Node} {st st' : St}
    (h : callAction ctx env callee args st = .ok (args', st')) :
    nsizeNL args' = nsizeNL args := by
  unfold callAction at h
  repeat' split at h
  all_goals try exact processSplit_nsize h
  all_goals simp at h
  all_goals try (obtain ⟨h1, -⟩ := h; (first | subst h1 | rw [h1]))
  all_goals simp [nsizeNL, processResolve, setValue_nsize]

/-- The names `var` declarations bind at one statement-list level, as
babel's scope records them (hoisted: position within the list does not
matter). -/
def declaredNames : List Stmt → List String
  | [] => []
  | .varDecl names _ :: rest => names ++ declaredNames rest
  | _ :: rest => declaredNames rest

mutual

/-- The loader's single babel-traverse pass over an expression node, with
the visitors of the source: ImportDeclaration (statement level),
CallExpression, Identifier and MemberExpression.  The visitor acts on the
node first (callAction or processReplaceable), then the walk descends into
the possibly mutated children — babel requeues a replaceWith result, and a
parsed replacement is a literal with no further matches.  `env` is the
list of names bound in enclosing scopes; a function expression extends it
with its parameters and its body's var declarations. -/
def visitN (ctx : Ctx) (env : List String) (n : Node) (st : St) : Except JsError (Node × St) :=
  match n with
  | .call callee args =>
    match hact : callAction ctx env callee args st with
    | .error e => .error e
    | .ok (args₁, st₁) =>
      match visitN ctx env callee st₁ with
      | .error e => .error e
      | .ok (callee', st₂) =>
        match visitNL ctx env args₁ st₂ with
        | .error e => .error e
        | .ok (args', st₃) => .ok (.call callee' args', st₃)
  | .ident name => .ok (processReplaceable ctx (.ident name), st)
  | .member obj prop =>
    match lookupVar ctx.replaceVariables (getName (.member obj prop)) with
    | some source => .ok (getParsedReplacement source, st)
    | none =>
      match visitN ctx env obj st with
      | .error e => .error e
      | .ok (obj', st₁) =>
        match visitN ctx env prop st₁ with
        | .error e => .error e
        | .ok (prop', st₂) => .ok (.member obj' prop', st₂)
  | .arrayExpr els =>
    match visitNL ctx env els st with
    | .error e => .error e
    | .ok (els', st₁) => .ok (.arrayExpr els', st₁)
  | .funcExpr params body =>
    match visitSL ctx (params ++ declaredNames body ++ env) body st with
    | .error e => .error e
    | .ok (body', st₁) => .ok (.funcExpr params body', st₁)
  | .stringLit v => .ok (.stringLit v, st)
  | .parsedLit s => .ok (.parsedLit s, st)
termination_by nsizeN n
decreasing_by
all_goals try subst_vars
all_goals simp only [nsizeN, nsizeNL, nsizeS, nsizeSL]
all_goals try omega
all_goals (have hsz := callAction_nsize hact; omega)

/-- The pass over a list of sibling expression nodes. -/
def visitNL (ctx : Ctx) (env : List String) (ns : List Node) (st : St) :
    Except JsError (List Node × St) :=
  match ns with
  | [] => .ok ([], st)
  | n :: rest =>
    match visitN ctx env n st with
    | .error e => .error e
    | .ok (n', st₁) =>
      match visitNL ctx env rest st₁ with
      | .error e => .error e
      | .ok (rest', st₂) => .ok (n' :: rest', st₂)
termination_by nsizeNL ns
decreasing_by
all_goals try subst_vars
all_goals simp only [nsizeN, nsizeNL, nsizeS, nsizeSL]
all_goals omega

/-- The pass over one statement: the ImportDeclaration visitor calls
processResolve on the declaration's source, then the walk descends (a
rewritten source is a StringLiteral, for which there is no visitor). -/
def visitS (ctx : Ctx) (env : List String) (s : Stmt) (st : St) : Except JsError (Stmt × St) :=
  match s with
  | .importDecl source =>
    let resolved := processResolve ctx source st
    match visitN ctx env resolved.1 resolved.2 with
    | .error e => .error e
    | .ok (source', st₁) => .ok (.importDecl source', st₁)
  | .exprStmt e =>
    match visitN ctx env e st with
    | .error e => .error e
    | .ok (e', st₁) => .ok (.exprStmt e', st₁)
  | .varDecl names inits =>
    match visitNL ctx env inits st with
    | .error e => .error e
    | .ok (inits', st₁) => .ok (.varDecl names inits', st₁)
termination_by nsizeS s
decreasing_by
all_goals try subst_vars
all_goals simp only [nsizeN, nsizeNL, nsizeS, nsizeSL, processResolve, setValue_nsize]
all_goals omega

/-- The pass over a list of statements. -/
def visitSL (ctx : Ctx) (env : List String) (ss : List Stmt) (st : St) :
    Except JsError (List Stmt × St) :=
  match ss with
  | [] => .ok ([], st)
  | s :: rest =>
    match visitS ctx env s st with
    | .error e => .error e
    | .ok (s', st₁) =>
      match visitSL ctx env rest st₁ with
      | .error e => .error e
      | .ok (rest', st₂) => .ok (s' :: rest', st₂)
termination_by nsizeSL ss
decreasing_by
all_goals try subst_vars
all_goals simp only [nsizeN, nsizeNL, nsizeS, nsizeSL]
all_goals omega

end

/-- Step equation for the nested pass on a call node whose action fails. -/
theorem nestedVisitN_call_err {ctx : Ctx} {aliasName : String} {callee : Node}
    {args : List Node} {acc : List FileImport} {e : JsError}
    (h : nestedAction ctx aliasName callee args acc = .error e) :
    nestedVisitN ctx aliasName (.call callee args) acc = .error e := by
  rw [nestedVisitN]
  split
  · rename_i e' heq
    rw [h] at heq
    try cases heq
    try rfl
  · rename_i args₁ acc₁ heq
    rw [h] at heq
    try cases heq
    try rfl

/-- Step equation for the nested pass on a call node: the action first,
then the walk over the possibly mutated children. -/
theorem nestedVisitN_call_ok {ctx : Ctx} {aliasName : String} {callee : Node}
    {args args₁ : List Node} {acc acc₁ : List FileImport}
    (h : nestedAction ctx aliasName callee args acc = .ok (args₁, acc₁)) :
    nestedVisitN ctx aliasName (.call callee args) acc =
      match nestedVisitN ctx aliasName callee acc₁ with
      | .error e => .error e
      | .ok (callee', acc₂) =>
        match nestedVisitNL ctx aliasName args₁ acc₂ with
        | .error e => .error e
        | .ok (args', acc₃) => .ok (.call callee' args', acc₃) := by
  rw [nestedVisitN]
  split
  · rename_i e' heq
    rw [h] at heq
    try cases heq
    try rfl
  · rename_i a₁ c₁ heq
    rw [h] at heq
    try cases heq
    try rfl

/-- Step equation for the main pass on a call node whose visitor action
fails. -/
theorem visitN_call_err {ctx : Ctx} {env : List String} {callee : Node}
    {args : List Node} {st : St} {e : JsError}
    (h : callAction ctx env callee args st = .error e) :
    visitN ctx env (.call callee args) st = .error e := by
  rw [visitN]
  split
  · rename_i e' heq
    rw [h] at heq
    try cases heq
    try rfl
  · rename_i args₁ st₁ heq
    rw [h] at heq
    try cases heq
    try rfl

/-- Step equation for the main pass on a call node: the CallExpression
visitor acts first, then the walk descends into the possibly mutated
callee and arguments. -/
theorem visitN_call_ok {ctx : Ctx} {env : List String} {callee : Node}
    {args args₁ : List Node} {st st₁ : St}
    (h : callAction ctx env callee args st = .ok (args₁, st₁)) :
    visitN ctx env (.call callee args) st =
      match visitN ctx env callee st₁ with
      | .error e => .error e
      | .ok (callee', st₂) =>
        match visitNL ctx env args₁ st₂ with
        | .error e => .error e
        | .ok (args', st₃) => .ok (.call callee' args', st₃) := by
  rw [visitN]
  split
  · rename_i e' heq
    rw [h] at heq
    try cases heq
    try rfl
  · rename_i a₁ s₁ heq
    rw [h] at heq
    try cases heq
    try rfl

/-- Unfolding the nested pass on non-call nodes (no action, descent only). -/
theorem nestedVisitN_stringLit (ctx : Ctx) (aliasName : String) (v : JSValue)
    (acc : List FileImport) :
    nestedVisitN ctx aliasName (.stringLit v) acc = .ok (.stringLit v, acc) := by
  rw [nestedVisitN]

/-- Unfolding the nested pass on an identifier. -/
theorem nestedVisitN_ident (ctx : Ctx) (aliasName name : String) (acc : List FileImport) :
    nestedVisitN ctx aliasName (.ident name) acc = .ok (.ident name, acc) := by
  rw [nestedVisitN]

/-- Unfolding the nested pass on a parsed replacement. -/
theorem nestedVisitN_parsedLit (ctx : Ctx) (aliasName s : String) (acc : List FileImport) :
    nestedVisitN ctx aliasName (.parsedLit s) acc = .ok (.parsedLit s, acc) := by
  rw [nestedVisitN]

/-- Unfolding the nested pass on a member expression. -/
theorem nestedVisitN_member (ctx : Ctx) (aliasName : String) (obj prop : Node)
    (acc : List FileImport) :
    nestedVisitN ctx aliasName (.member obj prop) acc =
      match nestedVisitN ctx aliasName obj acc with
      | .error e => .error e
      | .ok (obj', acc₁) =>
        match nestedVisitN ctx aliasName prop acc₁ with
        | .error e => .error e
        | .ok (prop', acc₂) => .ok (.member obj' prop', acc₂) := by
  rw [nestedVisitN]

/-- Unfolding the nested pass on an array expression. -/
theorem nestedVisitN_arrayExpr (ctx : Ctx) (aliasName : String) (els : List Node)
    (acc : List FileImport) :
    nestedVisitN ctx aliasName (.arrayExpr els) acc =
      match nestedVisitNL ctx aliasName els acc with
      | .error e => .error e
      | .ok (els', acc₁) => .ok (.arrayExpr els', acc₁) := by
  rw [nestedVisitN]

/-- Unfolding the nested pass on a function expression. -/
theorem nestedVisitN_funcExpr (ctx : Ctx) (aliasName : String) (params : List String)
    (body : List Stmt) (acc : List FileImport) :
    nestedVisitN ctx aliasName (.funcExpr params body) acc =
      match nestedVisitSL ctx aliasName body acc with
      | .error e => .error e
      | .ok (body', acc₁) => .ok (.funcExpr params body', acc₁) := by
  rw [nestedVisitN]

/-- Unfolding the nested pass on a call node, with the action's result
inspected by an ordinary match. -/
theorem nestedVisitN_call (ctx : Ctx) (aliasName : String) (callee : Node)
    (args : List Node) (acc : List FileImport) :
    nestedVisitN ctx aliasName (.call callee args) acc =
      match nestedAction ctx aliasName callee args acc with
      | .error e => .error e
      | .ok (args₁, acc₁) =>
        match nestedVisitN ctx aliasName callee acc₁ with
        | .error e => .error e
        | .ok (callee', acc₂) =>
          match nestedVisitNL ctx aliasName args₁ acc₂ with
          | .error e => .error e
          | .ok (args', acc₃) => .ok (.call callee' args', acc₃) := by
  cases hc : nestedAction ctx aliasName callee args acc with
  | error e => rw [nestedVisitN_call_err hc]
  | ok v =>
    rw [@nestedVisitN_call_ok ctx aliasName callee args v.1 acc v.2 (by rw [hc])]

/-- Unfolding the main pass on a call node, with the visitor action's
result inspected by an ordinary match. -/
theorem visitN_call (ctx : Ctx) (env : List String) (callee : Node)
    (args : List Node) (st : St) :
    visitN ctx env (.call callee args) st =
      match callAction ctx env callee args st with
      | .error e => .error e
      | .ok (args₁, st₁) =>
        match visitN ctx env callee st₁ with
        | .error e => .error e
        | .ok (callee', st₂) =>
          match visitNL ctx env args₁ st₂ with
          | .error e => .error e
          | .ok (args', st₃) => .ok (.call callee' args', st₃) := by
  cases hc : callAction ctx env callee args st with
  | error e => rw [visitN_call_err hc]
  | ok v =>
    rw [@visitN_call_ok ctx env callee args v.1 st v.2 (by rw [hc])]

/-- Unfolding the main pass on a string literal (no visitor). -/
theorem visitN_stringLit (ctx : Ctx) (env : List String) (v : JSValue) (st : St) :
    visitN ctx env (.stringLit v) st = .ok (.stringLit v, st) := by
  rw [visitN]

/-- Unfolding the main pass on an identifier: the Identifier visitor is
processReplaceable. -/
theorem visitN_ident (ctx : Ctx) (env : List String) (name : String) (st : St) :
    visitN ctx env (.ident name) st = .ok (processReplaceable ctx (.ident name), st) := by
  rw [visitN]

/-- Unfolding the main pass on a parsed replacement (a literal: no
visitor matches, no children). -/
theorem visitN_parsedLit (ctx : Ctx) (env : List String) (s : String) (st : St) :
    visitN ctx env (.parsedLit s) st = .ok (.parsedLit s, st) := by
  rw [visitN]

/-- Unfolding the main pass on a member expression: the MemberExpression
visitor (processReplaceable) first, then descent into object and
property — where a property identifier is itself visited by the
Identifier visitor. -/
theorem visitN_member (ctx : Ctx) (env : List String) (obj prop : Node) (st : St) :
    visitN ctx env (.member obj prop) st =
      match lookupVar ctx.replaceVariables (getName (.member obj prop)) with
      | some source => .ok (getParsedReplacement source, st)
      | none =>
        match visitN ctx env obj st with
        | .error e => .error e
        | .ok (obj', st₁) =>
          match visitN ctx env prop st₁ with
          | .error e => .error e
          | .ok (prop', st₂) => .ok (.member obj' prop', st₂) := by
  rw [visitN]

/-- Unfolding the main pass on an array expression. -/
theorem visitN_arrayExpr (ctx : Ctx) (env : List String) (els : List Node) (st : St) :
    visitN ctx env (.arrayExpr els) st =
      match visitNL ctx env els st with
      | .error e => .error e
      | .ok (els', st₁) => .ok (.arrayExpr els', st₁) := by
  rw [visitN]

/-- Unfolding the main pass on a function expression: the body is walked
with the scope extended by the parameters and the body's own var
bindings. -/
theorem visitN_funcExpr (ctx : Ctx) (env : List String) (params : List String)
    (body : List Stmt) (st : St) :
    visitN ctx env (.funcExpr params body) st =
      match visitSL ctx (params ++ declaredNames body ++ env) body st with
      | .error e => .error e
      | .ok (body', st₁) => .ok (.funcExpr params body', st₁) := by
  rw [visitN]

/-- The whole traversal of a parsed program: one pass with the four
visitors, the scope env starting from the program scope's own bindings. -/
def runTraverse (ctx : Ctx) (prog : List Stmt) (st : St) : Except JsError (List Stmt × St) :=
  visitSL ctx (declaredNames prog) prog st

mutual

/-- Every string literal in the node carries a string value (as every
parser-produced tree does): the form the code generator can serialize.
A numeric or undefined value in a StringLiteral slot would break the
generated text. -/
def strWFN : Node → Bool
  | .stringLit (.str _) => true
  | .stringLit _ => false
  | .ident _ => true
  | .member o p => strWFN o && strWFN p
  | .call c args => strWFN c && strWFNL args
  | .arrayExpr els => strWFNL els
  | .funcExpr _ body => strWFSL body
  | .parsedLit _ => true

/-- strWFN over a list of nodes. -/
def strWFNL : List Node → Bool
  | [] => true
  | n :: rest => strWFN n && strWFNL rest

/-- strWFN over a statement. -/
def strWFS : Stmt → Bool
  | .importDecl source => strWFN source
  | .exprStmt e => strWFN e
  | .varDecl _ inits => strWFNL inits

/-- strWFN over a statement list. -/
def strWFSL : List Stmt → Bool
  | [] => true
  | s :: rest => strWFS s && strWFSL rest

end

mutual

/-- No node of the expression matches any of the loader's visitors'
actions: no call expression whose flattened callee name is in
RESOLVE_NAMES, and no identifier or member expression whose flattened
name is in the replacement table (the condition of the spec's round-trip
property: no require/chunk/replacement syntax left). -/
def untriggeredN (ctx : Ctx) : Node → Bool
  | .stringLit _ => true
  | .parsedLit _ => true
  | .ident name => (lookupVar ctx.replaceVariables name).isNone
  | .member o p =>
    (lookupVar ctx.replaceVariables (getName (.member o p))).isNone
      && untriggeredN ctx o && untriggeredN ctx p
  | .call callee args =>
    !(RESOLVE_NAMES.contains (getName callee))
      && untriggeredN ctx callee && untriggeredNL ctx args
  | .arrayExpr els => untriggeredNL ctx els
  | .funcExpr params body =>
    params.all (fun p => (lookupVar ctx.replaceVariables p).isNone)
      && untriggeredSL ctx body

/-- untriggeredN over a list of nodes. -/
def untriggeredNL (ctx : Ctx) : List Node → Bool
  | [] => true
  | n :: rest => untriggeredN ctx n && untriggeredNL ctx rest

/-- untriggeredN over a statement; an import declaration always triggers
its visitor, so a clean file has none. -/
def untriggeredS (ctx : Ctx) : Stmt → Bool
  | .importDecl _ => false
  | .exprStmt e => untriggeredN ctx e
  | .varDecl names inits =>
    names.all (fun p => (lookupVar ctx.replaceVariables p).isNone)
      && untriggeredNL ctx inits

/-- untriggeredN over a statement list. -/
def untriggeredSL (ctx : Ctx) : List Stmt → Bool
  | [] => true
  | s :: rest => untriggeredS ctx s && untriggeredSL ctx rest

end

mutual

/-- All string-literal values occurring in an expression, in tree order:
what of the original raw text survives into the generated code as string
literals. -/
def stringValuesN : Node → List JSValue
  | .stringLit v => [v]
  | .ident _ => []
  | .parsedLit _ => []
  | .member o p => stringValuesN o ++ stringValuesN p
  | .call c args => stringValuesN c ++ stringValuesNL args
  | .arrayExpr els => stringValuesNL els
  | .funcExpr _ body => stringValuesSL body

/-- stringValuesN over a list of nodes. -/
def stringValuesNL : List Node → List JSValue
  | [] => []
  | n :: rest => stringValuesN n ++ stringValuesNL rest

/-- stringValuesN over a statement. -/
def stringValuesS : Stmt → List JSValue
  | .importDecl source => stringValuesN source
  | .exprStmt e => stringValuesN e
  | .varDecl _ inits => stringValuesNL inits

/-- stringValuesN over a statement list. -/
def stringValuesSL : List Stmt → List JSValue
  | [] => []
  | s :: rest => stringValuesS s ++ stringValuesSL rest

end

/-- A file that consists solely of static import declarations, one per
specifier, in order. -/
def importProg (specs : List String) : List Stmt :=
  specs.map (fun s => .importDecl (.stringLit (.str s)))

/-- The loader's return value for a processed file: the chunks and imports
collected and the mutated tree handed to the code generator (the generated
text and source map are the external generator's rendering of it). -/
structure LoaderResult where
  chunks : List FileChunk
  imports : List FileImport
  program : List Stmt

/-- The outcome of `parse(file.contents, ...)`: a tree, or a parse error
with or without a source location (error.loc gives line and 0-based
column). -/
inductive ParseResult where
  | parsed (program : List Stmt)
  | failed (loc : Option (Nat × Nat)) (message : String)

/-- How one loader invocation ends: a result, a FileIssue (contents, line,
1-based column, message, severity), a MessageIssue (message, severity), or
a raw JavaScript error escaping the traversal. -/
inductive LoaderOutcome where
  | result (r : LoaderResult)
  | fileIssue (contents : String) (line : Nat) (col : Nat) (message : String) (severity : String)
  | messageIssue (message : String) (severity : String)
  | thrown (e : JsError)

/-- The loader body after shouldProcess: parse the file, wrap a parse
failure in a FileIssue when it carries a location (column shifted to
1-based) and in a MessageIssue otherwise — the message being
`error.message + " in " + relative path` — and otherwise traverse and
return chunks, imports and the mutated tree. -/
def loader (ctx : Ctx) (fileContents relativePath : String) (parseResult : ParseResult)
    (uid0 : Nat) : LoaderOutcome :=
  match parseResult with
  | .failed (some (line, col)) msg =>
    .fileIssue fileContents line (col + 1) (msg ++ " in " ++ relativePath) "error"
  | .failed none msg =>
    .messageIssue (msg ++ " in " ++ relativePath) "error"
  | .parsed prog =>
    match runTraverse ctx prog { imports := [], chunks := [], uid := uid0 } with
    | .error e => .thrown e
    | .ok (prog', st) =>
      .result { chunks := st.chunks, imports := st.imports, program := prog' }

/-- A concrete configuration for witnesses: no replacement variables, a
resolution capability assigning identifier 7 to everything. -/
def ctxW : Ctx := { replaceVariables := [], resolve := fun _ => 7 }

/-- A concrete configuration with the replacement table of the spec's
example: `__DEV__` replaced by the source text `false`. -/
def ctxR : Ctx := { replaceVariables := [("__DEV__", "false")], resolve := fun _ => 0 }

/-- A concrete starting state for witnesses. -/
def stW : St := { imports := [], chunks := [], uid := 5 }

/-- C1: a call whose flattened callee name is require or require.resolve,
with a string-literal first argument, is left untouched when the name
require is bound in the call site's scope chain — same arguments,
no import recorded, no state change; a module.hot.accept or
module.hot.decline call is rewritten regardless of the binding (its
argument becomes the string form of the resolved id and the request is
pushed); a require.ensure call with an array first argument dispatches to
processSplit regardless of the binding. -/
theorem requireScopeGuard (ctx : Ctx) (env : List String) (st : St)
    (callee : Node) (s : String) (rest : List Node)
    (hbound : env.contains "require" = true) :
    ((getName callee = "require" ∨ getName callee = "require.resolve") →
      callAction ctx env callee (.stringLit (.str s) :: rest) st
        = .ok (.stringLit (.str s) :: rest, st))
  ∧ ((getName callee = "module.hot.accept" ∨ getName callee = "module.hot.decline") →
      callAction ctx env callee (.stringLit (.str s) :: rest) st
        = .ok (.stringLit (.str (toString (ctx.resolve (.str s)))) :: rest,
               { st with imports := st.imports ++ [mkRequest ctx (.str s)] }))
  ∧ (getName callee = "require.ensure" →
      ∀ els : List Node,
        callAction ctx env callee (.arrayExpr els :: rest) st
          = processSplit ctx (.arrayExpr els :: rest) st) := by
  have hb : "require" ∈ env := by simpa using hbound
  refine ⟨?_, ?_, ?_⟩
  · rintro (hname | hname) <;>
      (unfold callAction
       rw [hname]
       simp [RESOLVE_NAMES, RESOLVE_NAMES_SENSITIVE, RESOLVE_NAMES_CHUNK,
             nodeType, expectedArgType, hb])
  · rintro (hname | hname) <;>
      (unfold callAction
       rw [hname]
       simp [RESOLVE_NAMES, RESOLVE_NAMES_SENSITIVE, RESOLVE_NAMES_CHUNK,
             nodeType, expectedArgType, processResolve, mkRequest, getValue, setValue])
  · intro hname els
    unfold callAction
    rw [hname]
    simp [RESOLVE_NAMES, RESOLVE_NAMES_SENSITIVE, RESOLVE_NAMES_CHUNK,
          nodeType, expectedArgType]

/-- C1 witness: with require locally bound, a require call is untouched
while a module.hot.accept call is still rewritten and recorded. -/
theorem requireScopeGuard_witness :
    callAction ctxW ["require"] (.ident "require") [.stringLit (.str "./x")] stW
      = .ok ([.stringLit (.str "./x")], stW)
  ∧ callAction ctxW ["require"]
      (.member (.member (.ident "module") (.ident "hot")) (.ident "accept"))
      [.stringLit (.str "./x")] stW
      = .ok ([.stringLit (.str "7")],
             { imports := [{ request := .str "./x", id := 7 }], chunks := [], uid := 5 }) := by
  constructor
  · exact (requireScopeGuard ctxW ["require"] stW (.ident "require") "./x" [] rfl).1
      (Or.inl rfl)
  · exact (requireScopeGuard ctxW ["require"] stW
      (.member (.member (.ident "module") (.ident "hot")) (.ident "accept")) "./x" [] rfl).2.1
      (Or.inl rfl)

/-- C2: a call whose flattened callee name is recognized but whose shape
check fails — no first argument, or a first argument whose node type is
not the expected one (ArrayExpression for require.ensure, StringLiteral
for the rest) — is ignored: the arguments are returned unmodified,
no import or chunk is recorded, and no error is raised. -/
theorem shapeMismatchIgnored (ctx : Ctx) (env : List String) (st : St)
    (callee : Node) (args : List Node)
    (hname : RESOLVE_NAMES.contains (getName callee) = true)
    (hshape : args = []
      ∨ ∃ p rest, args = p :: rest
          ∧ (nodeType p == expectedArgType (getName callee)) = false) :
    callAction ctx env callee args st = .ok (args, st) := by
  unfold callAction
  rcases hshape with rfl | ⟨p, rest, rfl, hty⟩
  · simp [hname]
  · simp [hname, hty]

/-- C2 witness: require with a non-literal argument and require.ensure
with a non-array argument are both left untouched. -/
theorem shapeMismatchIgnored_witness :
    callAction ctxW [] (.ident "require") [.ident "dynamic"] stW
      = .ok ([.ident "dynamic"], stW)
  ∧ callAction ctxW [] (.member (.ident "require") (.ident "ensure"))
      [.stringLit (.str "a")] stW
      = .ok ([.stringLit (.str "a")], stW) := by
  constructor
  · exact shapeMismatchIgnored ctxW [] stW (.ident "require") [.ident "dynamic"] rfl
      (Or.inr ⟨.ident "dynamic", [], rfl, rfl⟩)
  · exact shapeMismatchIgnored ctxW [] stW (.member (.ident "require") (.ident "ensure"))
      [.stringLit (.str "a")] rfl
      (Or.inr ⟨.stringLit (.str "a"), [], rfl, rfl⟩)

/-- C8: a parse failure aborts the transform with no partial result: with
a source location it surfaces as a FileIssue carrying the file contents,
the line, the parser's column plus one, the message and severity error;
without a location it surfaces as a MessageIssue with the message and
severity error — never as an unstructured failure. -/
theorem parseFailureDiagnostic (ctx : Ctx) (contents relPath msg : String)
    (line col uid0 : Nat) :
    loader ctx contents relPath (.failed (some (line, col)) msg) uid0
      = .fileIssue contents line (col + 1) (msg ++ " in " ++ relPath) "error"
  ∧ loader ctx contents relPath (.failed none msg) uid0
      = .messageIssue (msg ++ " in " ++ relPath) "error" :=
  ⟨rfl, rfl⟩

/-- C6 counterexample: with the table mapping __DEV__ to false, the
member expression foo.__DEV__ is NOT left unaffected — the traversal
visits the property identifier, which matches the table, so the result is
foo.false (the property replaced by the parsed literal). -/
theorem replaceVariablesExact_counterexample :
    visitN ctxR [] (.member (.ident "foo") (.ident "__DEV__")) stW
      = .ok (.member (.ident "foo") (.parsedLit "false"), stW) := by
  rw [visitN_member]
  simp [lookupVar, getName, ctxR, visitN_ident, processReplaceable, getParsedReplacement]

/-- C6 as amended: with a table mapping __DEV__ to false (and no other
relevant keys), a free-standing identifier __DEV__ becomes the parsed
literal false; the lookup is exact-name and case-sensitive, so __dev__ is
unaffected; but in a property access foo.__DEV__ the member expression
itself misses the table while the property identifier is still visited
and replaced, so foo.__DEV__ becomes foo.false rather than being left
unaffected. -/
theorem replaceVariablesExact (ctx : Ctx) (env : List String) (st : St)
    (h1 : lookupVar ctx.replaceVariables "__DEV__" = some "false")
    (h2 : lookupVar ctx.replaceVariables "__dev__" = none)
    (h3 : lookupVar ctx.replaceVariables "foo" = none)
    (h4 : lookupVar ctx.replaceVariables "foo.__DEV__" = none) :
    visitN ctx env (.ident "__DEV__") st = .ok (.parsedLit "false", st)
  ∧ visitN ctx env (.ident "__dev__") st = .ok (.ident "__dev__", st)
  ∧ visitN ctx env (.member (.ident "foo") (.ident "__DEV__")) st
      = .ok (.member (.ident "foo") (.parsedLit "false"), st) := by
  refine ⟨?_, ?_, ?_⟩
  · rw [visitN_ident]
    simp [processReplaceable, getName, h1, getParsedReplacement]
  · rw [visitN_ident]
    simp [processReplaceable, getName, h2]
  · rw [visitN_member]
    simp [getName, h4, visitN_ident, processReplaceable, h3, h1, getParsedReplacement]

/-- C6 witness: the amended behaviour at the concrete table of the spec's
example. -/
theorem replaceVariablesExact_witness :
    visitN ctxR [] (.ident "__DEV__") stW = .ok (.parsedLit "false", stW)
  ∧ visitN ctxR [] (.ident "__dev__") stW = .ok (.ident "__dev__", stW) := by
  have h := replaceVariablesExact ctxR [] stW rfl rfl rfl rfl
  exact ⟨h.1, h.2.1⟩

/-- Computing a chunk name touches nothing but the unique-id counter. -/
theorem splitChunkName_state (rest : List Node) (st : St) :
    (splitChunkName rest st).2.chunks = st.chunks
      ∧ (splitChunkName rest st).2.imports = st.imports := by
  unfold splitChunkName
  split <;> simp [getNextUniqueID]

/-- C3: a require.ensure call with an array-literal first argument
appends exactly one chunk descriptor: its name is the splitChunkName
result (the third argument's value when that argument is a string
literal — fourth conjunct — and otherwise the string form of the freshly
consumed unique id — fifth conjunct); its entry list has one request per
array element in order; each element's value slot is overwritten with the
string form of its request's identifier; and the global import list is
untouched. -/
theorem ensureChunkDescriptor (ctx : Ctx) (env : List String) (st st' : St)
    (callee : Node) (els rest args' : List Node)
    (hname : getName callee = "require.ensure")
    (h : callAction ctx env callee (.arrayExpr els :: rest) st = .ok (args', st')) :
    (∃ nestedImports : List FileImport,
        st'.chunks = st.chunks
          ++ [{ name := (splitChunkName rest st).1,
                entry := els.map (fun el => mkRequest ctx (getValue el)),
                imports := nestedImports }])
  ∧ args'.head? = some (.arrayExpr (els.map (fun el =>
        setValue el (.str (toString (mkRequest ctx (getValue el)).id)))))
  ∧ st'.imports = st.imports
  ∧ (∀ v, rest.get? 1 = some (.stringLit v) → splitChunkName rest st = (v, st))
  ∧ ((∀ v, rest.get? 1 ≠ some (.stringLit v)) →
        splitChunkName rest st = (.str (toString st.uid), { st with uid := st.uid + 1 })) := by
  unfold callAction at h
  rw [hname] at h
  simp [RESOLVE_NAMES, RESOLVE_NAMES_SENSITIVE, RESOLVE_NAMES_CHUNK,
        nodeType, expectedArgType] at h
  simp only [processSplit] at h
  have hstate := splitChunkName_state rest st
  have key : ∃ nestedImports : List FileImport, ∃ tail : List Node,
      args' = .arrayExpr (els.map (fun el =>
          setValue el (.str (toString (mkRequest ctx (getValue el)).id)))) :: tail
    ∧ st' = { imports := (splitChunkName rest st).2.imports,
              chunks := (splitChunkName rest st).2.chunks
                ++ [{ name := (splitChunkName rest st).1,
                      entry := els.map (fun el => mkRequest ctx (getValue el)),
                      imports := nestedImports }],
              uid := (splitChunkName rest st).2.uid } := by
    split at h
    · split at h
      · simp at h
      · simp only [Except.ok.injEq, Prod.mk.injEq] at h
        obtain ⟨h1, h2⟩ := h
        exact ⟨_, _, h1.symm, h2.symm⟩
    · simp only [Except.ok.injEq, Prod.mk.injEq] at h
      obtain ⟨h1, h2⟩ := h
      exact ⟨[], _, h1.symm, h2.symm⟩
  obtain ⟨nested, tail, h1, h2⟩ := key
  refine ⟨⟨nested, by rw [h2]; simp [hstate.1]⟩, by rw [h1]; rfl,
          by rw [h2]; exact hstate.2, ?_, ?_⟩
  · intro v hv
    unfold splitChunkName
    rw [hv]
  · intro hne
    unfold splitChunkName
    split
    · rename_i v hv
      exact absurd hv (hne v)
    · simp [getNextUniqueID]

/-- Nat to string at the witnesses' identifiers. -/
theorem toStringSeven : toString (7 : Nat) = "7" := rfl

/-- Nat to string at the witnesses' unique-id counter. -/
theorem toStringFive : toString (5 : Nat) = "5" := rfl

/-- C3 witness: a concrete ensure call with two entries and an explicit
name, run through the visitor dispatch. -/
theorem ensureChunkDescriptor_witness :
    ∃ st' : St, ∃ args' : List Node,
      callAction ctxW [] (.member (.ident "require") (.ident "ensure"))
          [.arrayExpr [.stringLit (.str "a"), .stringLit (.str "b")],
           .stringLit (.str "cb"), .stringLit (.str "myChunk")] stW
        = .ok (args', st')
      ∧ (∃ nestedImports : List FileImport,
           st'.chunks = stW.chunks
             ++ [{ name := .str "myChunk",
                   entry := [{ request := .str "a", id := 7 },
                             { request := .str "b", id := 7 }],
                   imports := nestedImports }])
      ∧ st'.imports = stW.imports := by
  have h : callAction ctxW [] (.member (.ident "require") (.ident "ensure"))
      [.arrayExpr [.stringLit (.str "a"), .stringLit (.str "b")],
       .stringLit (.str "cb"), .stringLit (.str "myChunk")] stW
      = .ok ([.arrayExpr [.stringLit (.str "7"), .stringLit (.str "7")],
              .stringLit (.str "cb"), .stringLit (.str "myChunk")],
             { imports := [], uid := 5,
               chunks := [{ name := .str "myChunk",
                            entry := [{ request := .str "a", id := 7 },
                                      { request := .str "b", id := 7 }],
                            imports := [] }] }) := by
    simp [callAction, processSplit, splitChunkName, RESOLVE_NAMES,
          RESOLVE_NAMES_SENSITIVE, RESOLVE_NAMES_CHUNK, getName, nodeType,
          expectedArgType, mkRequest, getValue, setValue, ctxW, stW, toStringSeven]
  have hc := ensureChunkDescriptor ctxW [] stW
    { imports := [], uid := 5,
      chunks := [{ name := .str "myChunk",
                   entry := [{ request := .str "a", id := 7 },
                             { request := .str "b", id := 7 }],
                   imports := [] }] }
    (.member (.ident "require") (.ident "ensure"))
    [.stringLit (.str "a"), .stringLit (.str "b")]
    [.stringLit (.str "cb"), .stringLit (.str "myChunk")]
    [.arrayExpr [.stringLit (.str "7"), .stringLit (.str "7")],
     .stringLit (.str "cb"), .stringLit (.str "myChunk")]
    rfl h
  refine ⟨_, _, h, ?_, hc.2.2.1⟩
  obtain ⟨nested, hch⟩ := hc.1
  exact ⟨nested, by simpa [splitChunkName, mkRequest, getValue, ctxW, stW] using hch⟩

/-- C4: for a require.ensure call whose second argument is a function
expression with first parameter p, the chunk's nested import list is
exactly what the nested pass over the callback body with alias p
collects, and the callback body in the tree is replaced by the rewritten
body; inside that pass, a call whose callee is the identifier p has its
first argument's value resolved, recorded, and overwritten with the
string form of the identifier, while a call to any other identifier is
left unmodified. -/
theorem ensureCallbackAlias (ctx : Ctx) (env : List String) (st st' : St)
    (callee : Node) (els r2 args' : List Node) (p : String) (ps : List String)
    (body body' : List Stmt) (nested : List FileImport)
    (hname : getName callee = "require.ensure")
    (hn : nestedVisitSL ctx p body [] = .ok (body', nested))
    (h : callAction ctx env callee
           (.arrayExpr els :: .funcExpr (p :: ps) body :: r2) st = .ok (args', st')) :
    (st'.chunks = st.chunks
       ++ [{ name := (splitChunkName (.funcExpr (p :: ps) body :: r2) st).1,
             entry := els.map (fun el => mkRequest ctx (getValue el)),
             imports := nested }]
     ∧ args' = .arrayExpr (els.map (fun el =>
           setValue el (.str (toString (mkRequest ctx (getValue el)).id))))
         :: .funcExpr (p :: ps) body' :: r2)
  ∧ (∀ (v : JSValue) (rest₂ : List Node) (acc : List FileImport),
       nestedAction ctx p (.ident p) (.stringLit v :: rest₂) acc
         = .ok (.stringLit (.str (toString (ctx.resolve v))) :: rest₂,
                acc ++ [{ request := v, id := ctx.resolve v }]))
  ∧ (∀ (other : String) (v : JSValue) (acc : List FileImport), other ≠ p →
       nestedVisitN ctx p (.call (.ident other) [.stringLit v]) acc
         = .ok (.call (.ident other) [.stringLit v], acc)) := by
  unfold callAction at h
  rw [hname] at h
  simp [RESOLVE_NAMES, RESOLVE_NAMES_SENSITIVE, RESOLVE_NAMES_CHUNK,
        nodeType, expectedArgType] at h
  have hstate := splitChunkName_state (.funcExpr (p :: ps) body :: r2) st
  refine ⟨?_, ?_, ?_⟩
  · simp only [processSplit] at h
    rw [hn] at h
    simp only [Except.ok.injEq, Prod.mk.injEq] at h
    obtain ⟨h1, h2⟩ := h
    subst h1
    subst h2
    exact ⟨by simp [hstate.1], rfl⟩
  · intro v rest₂ acc
    unfold nestedAction
    simp [calleeName, mkRequest, getValue, setValue]
  · intro other v acc hother
    rw [nestedVisitN_call]
    simp [nestedAction, calleeName, hother, nestedVisitN_ident,
          nestedVisitNL, nestedVisitN_stringLit]

/-- C4 witness: a concrete callback in which the alias call is rewritten
and recorded while a call to another name is untouched. -/
theorem ensureCallbackAlias_witness :
    ∃ st' : St, ∃ args' : List Node,
      callAction ctxW [] (.member (.ident "require") (.ident "ensure"))
          [.arrayExpr [.stringLit (.str "a")],
           .funcExpr ["req"] [.exprStmt (.call (.ident "req") [.stringLit (.str "c")]),
                              .exprStmt (.call (.ident "other") [.stringLit (.str "d")])]] stW
        = .ok (args', st')
      ∧ st'.chunks = [{ name := .str "5",
                        entry := [{ request := .str "a", id := 7 }],
                        imports := [{ request := .str "c", id := 7 }] }]
      ∧ args' = [.arrayExpr [.stringLit (.str "7")],
                 .funcExpr ["req"]
                   [.exprStmt (.call (.ident "req") [.stringLit (.str "7")]),
                    .exprStmt (.call (.ident "other") [.stringLit (.str "d")])]] := by
  have hn : nestedVisitSL ctxW "req"
      [.exprStmt (.call (.ident "req") [.stringLit (.str "c")]),
       .exprStmt (.call (.ident "other") [.stringLit (.str "d")])] []
      = .ok ([.exprStmt (.call (.ident "req") [.stringLit (.str "7")]),
              .exprStmt (.call (.ident "other") [.stringLit (.str "d")])],
             [{ request := .str "c", id := 7 }]) := by
    simp [nestedVisitSL, nestedVisitS, nestedVisitN_call, nestedVisitNL,
          nestedVisitN_stringLit, nestedVisitN_ident, nestedAction, calleeName,
          mkRequest, getValue, setValue, ctxW, toStringSeven]
  have h : callAction ctxW [] (.member (.ident "require") (.ident "ensure"))
      [.arrayExpr [.stringLit (.str "a")],
       .funcExpr ["req"] [.exprStmt (.call (.ident "req") [.stringLit (.str "c")]),
                          .exprStmt (.call (.ident "other") [.stringLit (.str "d")])]] stW
      = .ok ([.arrayExpr [.stringLit (.str "7")],
              .funcExpr ["req"]
                [.exprStmt (.call (.ident "req") [.stringLit (.str "7")]),
                 .exprStmt (.call (.ident "other") [.stringLit (.str "d")])]],
             { imports := [], uid := 6,
               chunks := [{ name := .str "5",
                            entry := [{ request := .str "a", id := 7 }],
                            imports := [{ request := .str "c", id := 7 }] }] }) := by
    simp only [ctxW] at hn
    simp [callAction, processSplit, splitChunkName, getNextUniqueID, RESOLVE_NAMES,
          RESOLVE_NAMES_SENSITIVE, RESOLVE_NAMES_CHUNK, getName, nodeType,
          expectedArgType, mkRequest, getValue, setValue, ctxW, stW, hn,
          toStringSeven, toStringFive]
  have hc := ensureCallbackAlias ctxW [] stW
    { imports := [], uid := 6,
      chunks := [{ name := .str "5",
                   entry := [{ request := .str "a", id := 7 }],
                   imports := [{ request := .str "c", id := 7 }] }] }
    (.member (.ident "require") (.ident "ensure"))
    [.stringLit (.str "a")] []
    [.arrayExpr [.stringLit (.str "7")],
     .funcExpr ["req"]
       [.exprStmt (.call (.ident "req") [.stringLit (.str "7")]),
        .exprStmt (.call (.ident "other") [.stringLit (.str "d")])]]
    "req" []
    [.exprStmt (.call (.ident "req") [.stringLit (.str "c")]),
     .exprStmt (.call (.ident "other") [.stringLit (.str "d")])]
    [.exprStmt (.call (.ident "req") [.stringLit (.str "7")]),
     .exprStmt (.call (.ident "other") [.stringLit (.str "d")])]
    [{ request := .str "c", id := 7 }]
    rfl hn h
  exact ⟨_, _, h, by
    rw [(hc.1).1]
    simp [splitChunkName, getNextUniqueID, mkRequest, getValue, ctxW, stW, toStringFive],
    (hc.1).2⟩

/-- The traversal of an import-only program: each declaration's source is
resolved and rewritten in declaration order, the requests accumulating at
the end of the import list. -/
theorem visitSL_importProg (ctx : Ctx) (env : List String) (specs : List String) (st : St) :
    visitSL ctx env (importProg specs) st
      = .ok (specs.map (fun s =>
              .importDecl (.stringLit (.str (toString (ctx.resolve (.str s)))))),
             { st with imports := st.imports ++ specs.map (fun s => mkRequest ctx (.str s)) }) := by
  induction specs generalizing st with
  | nil => simp [importProg, visitSL]
  | cons s rest ih =>
    simp only [importProg, List.map] at ih ⊢
    simp [visitSL, visitS, processResolve, getValue, setValue, mkRequest,
          visitN_stringLit, ih]

/-- An import-only program declares no var bindings. -/
theorem declaredNames_importProg (specs : List String) :
    declaredNames (importProg specs) = [] := by
  induction specs with
  | nil => rfl
  | cons s rest ih =>
    simpa [importProg, declaredNames] using ih

/-- The string-literal values of an import-only rewritten program are
exactly the rewritten sources. -/
theorem stringValues_importProg (f : String → JSValue) (specs : List String) :
    stringValuesSL (specs.map (fun s => .importDecl (.stringLit (f s))))
      = specs.map f := by
  induction specs with
  | nil => rfl
  | cons s rest ih =>
    simpa [stringValuesSL, stringValuesS, stringValuesN] using ih

/-- C7: a file of static import declarations only yields one
DependencyRequest per declaration, in declaration order, no chunks, and a
rewritten tree whose sources are the string forms of the assigned
identifiers; when no assigned identifier's string form collides with an
original specifier, no original specifier survives anywhere in the
rewritten tree's string literals. -/
theorem staticImportsTransform (ctx : Ctx) (contents relPath : String)
    (specs : List String) (uid0 : Nat) :
    loader ctx contents relPath (.parsed (importProg specs)) uid0
      = .result { chunks := [],
                  imports := specs.map (fun s => mkRequest ctx (.str s)),
                  program := specs.map (fun s =>
                    .importDecl (.stringLit (.str (toString (ctx.resolve (.str s)))))) }
  ∧ ((∀ s ∈ specs, toString (ctx.resolve (.str s)) ∉ specs) →
      ∀ v ∈ stringValuesSL (specs.map (fun s =>
              .importDecl (.stringLit (.str (toString (ctx.resolve (.str s))))))),
        v ∉ specs.map JSValue.str) := by
  constructor
  · simp only [loader, runTraverse, visitSL_importProg]
    simp
  · intro hdist v hv hmem
    rw [stringValues_importProg (fun s => .str (toString (ctx.resolve (.str s))))] at hv
    obtain ⟨s, hs, rfl⟩ := List.mem_map.mp hv
    obtain ⟨s', hs', heq⟩ := List.mem_map.mp hmem
    injection heq with h9
    exact hdist s hs (h9 ▸ hs')

/-- C7 witness: two concrete imports. -/
theorem staticImportsTransform_witness :
    loader ctxW "import a from x; import b from y;" "file.js"
        (.parsed (importProg ["./x", "./y"])) 0
      = .result { chunks := [],
                  imports := [{ request := .str "./x", id := 7 },
                              { request := .str "./y", id := 7 }],
                  program := [.importDecl (.stringLit (.str "7")),
                              .importDecl (.stringLit (.str "7"))] }
  ∧ ∀ v ∈ stringValuesSL (["./x", "./y"].map (fun s =>
          Stmt.importDecl (.stringLit (.str (toString (ctxW.resolve (.str s))))))),
      v ∉ ["./x", "./y"].map JSValue.str := by
  have h := staticImportsTransform ctxW "import a from x; import b from y;" "file.js"
    ["./x", "./y"] 0
  exact ⟨h.1, h.2 (by decide)⟩

/-- Overwriting a value slot with a string value keeps a node
string-well-formed. -/
theorem setValue_str_strWF (n : Node) (x : String) (h : strWFN n = true) :
    strWFN (setValue n (.str x)) = true := by
  cases n <;> simp_all [setValue, strWFN]

/-- Rewriting all elements with string values keeps the list
string-well-formed. -/
theorem map_setValue_strWF (f : Node → String) (l : List Node)
    (h : strWFNL l = true) :
    strWFNL (l.map (fun el => setValue el (.str (f el)))) = true := by
  induction l with
  | nil => rfl
  | cons x xs ih =>
    simp only [strWFNL, Bool.and_eq_true] at h
    simp [strWFNL, setValue_str_strWF x (f x) h.1, ih h.2]

/-- The nested visitor's action writes only string forms. -/
theorem nestedAction_strWF {ctx : Ctx} {aliasName : String} {callee : Node}
    {args args' : List Node} {acc acc' : List FileImport}
    (h : nestedAction ctx aliasName callee args acc = .ok (args', acc'))
    (hwf : strWFNL args = true) :
    strWFNL args' = true := by
  unfold nestedAction at h
  split at h
  · cases args with
    | nil => exact absurd h (by simp)
    | cons a rest =>
      simp only [Except.ok.injEq, Prod.mk.injEq] at h
      obtain ⟨h1, -⟩ := h
      rw [← h1]
      simp only [strWFNL, Bool.and_eq_true] at hwf ⊢
      exact ⟨setValue_str_strWF a _ hwf.1, hwf.2⟩
  · simp only [Except.ok.injEq, Prod.mk.injEq] at h
    obtain ⟨h1, -⟩ := h
    rw [← h1]
    exact hwf

mutual

/-- The nested pass writes only string forms into value slots. -/
theorem nestedVisitN_strWF (ctx : Ctx) (aliasName : String) (n : Node)
    (acc : List FileImport) (n' : Node) (acc' : List FileImport)
    (h : nestedVisitN ctx aliasName n acc = .ok (n', acc'))
    (hwf : strWFN n = true) :
    strWFN n' = true := by
  cases n with
  | call callee args =>
    simp only [nestedVisitN] at h
    split at h
    · exact absurd h (by simp)
    · rename_i args₁ acc₁ hact
      split at h
      · exact absurd h (by simp)
      · rename_i callee' acc₂ hcallee
        split at h
        · exact absurd h (by simp)
        · rename_i args' acc₃ hargs
          simp only [Except.ok.injEq, Prod.mk.injEq] at h
          obtain ⟨h1, -⟩ := h
          subst h1
          simp only [strWFN, Bool.and_eq_true] at hwf ⊢
          have esz := nestedAction_nsize hact
          have e3 := nestedAction_strWF hact hwf.2
          have e1 := nestedVisitN_strWF ctx aliasName callee acc₁ callee' acc₂ hcallee hwf.1
          have e2 := nestedVisitNL_strWF ctx aliasName args₁ acc₂ args' acc₃ hargs e3
          exact ⟨e1, e2⟩
  | member obj prop =>
    simp only [nestedVisitN] at h
    split at h
    · exact absurd h (by simp)
    · rename_i obj' acc₁ hobj
      split at h
      · exact absurd h (by simp)
      · rename_i prop' acc₂ hprop
        simp only [Except.ok.injEq, Prod.mk.injEq] at h
        obtain ⟨h1, -⟩ := h
        subst h1
        simp only [strWFN, Bool.and_eq_true] at hwf ⊢
        exact ⟨nestedVisitN_strWF ctx aliasName obj acc obj' acc₁ hobj hwf.1,
               nestedVisitN_strWF ctx aliasName prop acc₁ prop' acc₂ hprop hwf.2⟩
  | arrayExpr els =>
    simp only [nestedVisitN] at h
    split at h
    · exact absurd h (by simp)
    · rename_i els' acc₁ hels
      simp only [Except.ok.injEq, Prod.mk.injEq] at h
      obtain ⟨h1, -⟩ := h
      subst h1
      simp only [strWFN] at hwf ⊢
      exact nestedVisitNL_strWF ctx aliasName els acc els' acc₁ hels hwf
  | funcExpr params body =>
    simp only [nestedVisitN] at h
    split at h
    · exact absurd h (by simp)
    · rename_i body' acc₁ hbody
      simp only [Except.ok.injEq, Prod.mk.injEq] at h
      obtain ⟨h1, -⟩ := h
      subst h1
      simp only [strWFN] at hwf ⊢
      exact nestedVisitSL_strWF ctx aliasName body acc body' acc₁ hbody hwf
  | stringLit v =>
    simp only [nestedVisitN, Except.ok.injEq, Prod.mk.injEq] at h
    obtain ⟨h1, -⟩ := h
    subst h1
    exact hwf
  | ident name =>
    simp only [nestedVisitN, Except.ok.injEq, Prod.mk.injEq] at h
    obtain ⟨h1, -⟩ := h
    subst h1
    exact hwf
  | parsedLit s =>
    simp only [nestedVisitN, Except.ok.injEq, Prod.mk.injEq] at h
    obtain ⟨h1, -⟩ := h
    subst h1
    exact hwf
termination_by nsizeN n
decreasing_by
all_goals try subst_vars
all_goals simp only [nsizeN, nsizeNL, nsizeS, nsizeSL]
all_goals omega

/-- The nested pass over sibling lists writes only string forms. -/
theorem nestedVisitNL_strWF (ctx : Ctx) (aliasName : String) (ns : List Node)
    (acc : List FileImport) (ns' : List Node) (acc' : List FileImport)
    (h : nestedVisitNL ctx aliasName ns acc = .ok (ns', acc'))
    (hwf : strWFNL ns = true) :
    strWFNL ns' = true := by
  cases ns with
  | nil =>
    simp only [nestedVisitNL, Except.ok.injEq, Prod.mk.injEq] at h
    obtain ⟨h1, -⟩ := h
    subst h1
    exact hwf
  | cons n rest =>
    simp only [nestedVisitNL] at h
    split at h
    · exact absurd h (by simp)
    · rename_i n' acc₁ hn
      split at h
      · exact absurd h (by simp)
      · rename_i rest' acc₂ hrest
        simp only [Except.ok.injEq, Prod.mk.injEq] at h
        obtain ⟨h1, -⟩ := h
        subst h1
        simp only [strWFNL, Bool.and_eq_true] at hwf ⊢
        exact ⟨nestedVisitN_strWF ctx aliasName n acc n' acc₁ hn hwf.1,
               nestedVisitNL_strWF ctx aliasName rest acc₁ rest' acc₂ hrest hwf.2⟩
termination_by nsizeNL ns
decreasing_by
all_goals try subst_vars
all_goals simp only [nsizeN, nsizeNL, nsizeS, nsizeSL]
all_goals omega

/-- The nested pass over one statement writes only string forms. -/
theorem nestedVisitS_strWF (ctx : Ctx) (aliasName : String) (s : Stmt)
    (acc : List FileImport) (s' : Stmt) (acc' : List FileImport)
    (h : nestedVisitS ctx aliasName s acc = .ok (s', acc'))
    (hwf : strWFS s = true) :
    strWFS s' = true := by
  cases s with
  | importDecl source =>
    simp only [nestedVisitS] at h
    split at h
    · exact absurd h (by simp)
    · rename_i source' acc₁ hs
      simp only [Except.ok.injEq, Prod.mk.injEq] at h
      obtain ⟨h1, -⟩ := h
      subst h1
      simp only [strWFS] at hwf ⊢
      exact nestedVisitN_strWF ctx aliasName source acc source' acc₁ hs hwf
  | exprStmt e =>
    simp only [nestedVisitS] at h
    split at h
    · exact absurd h (by simp)
    · rename_i e' acc₁ hs
      simp only [Except.ok.injEq, Prod.mk.injEq] at h
      obtain ⟨h1, -⟩ := h
      subst h1
      simp only [strWFS] at hwf ⊢
      exact nestedVisitN_strWF ctx aliasName e acc e' acc₁ hs hwf
  | varDecl names inits =>
    simp only [nestedVisitS] at h
    split at h
    · exact absurd h (by simp)
    · rename_i inits' acc₁ hs
      simp only [Except.ok.injEq, Prod.mk.injEq] at h
      obtain ⟨h1, -⟩ := h
      subst h1
      simp only [strWFS] at hwf ⊢
      exact nestedVisitNL_strWF ctx aliasName inits acc inits' acc₁ hs hwf
termination_by nsizeS s
decreasing_by
all_goals try subst_vars
all_goals simp only [nsizeN, nsizeNL, nsizeS, nsizeSL]
all_goals omega

/-- The nested pass over statement lists writes only string forms. -/
theorem nestedVisitSL_strWF (ctx : Ctx) (aliasName : String) (ss : List Stmt)
    (acc : List FileImport) (ss' : List Stmt) (acc' : List FileImport)
    (h : nestedVisitSL ctx aliasName ss acc = .ok (ss', acc'))
    (hwf : strWFSL ss = true) :
    strWFSL ss' = true := by
  cases ss with
  | nil =>
    simp only [nestedVisitSL, Except.ok.injEq, Prod.mk.injEq] at h
    obtain ⟨h1, -⟩ := h
    subst h1
    exact hwf
  | cons s rest =>
    simp only [nestedVisitSL] at h
    split at h
    · exact absurd h (by simp)
    · rename_i s' acc₁ hs
      split at h
      · exact absurd h (by simp)
      · rename_i rest' acc₂ hrest
        simp only [Except.ok.injEq, Prod.mk.injEq] at h
        obtain ⟨h1, -⟩ := h
        subst h1
        simp only [strWFSL, Bool.and_eq_true] at hwf ⊢
        exact ⟨nestedVisitS_strWF ctx aliasName s acc s' acc₁ hs hwf.1,
               nestedVisitSL_strWF ctx aliasName rest acc₁ rest' acc₂ hrest hwf.2⟩
termination_by nsizeSL ss
decreasing_by
all_goals try subst_vars
all_goals simp only [nsizeN, nsizeNL, nsizeS, nsizeSL]
all_goals omega

end

/-- processSplit writes only string forms into value slots. -/
theorem processSplit_strWF {ctx : Ctx} {args args' : List Node} {st st' : St}
    (h : processSplit ctx args st = .ok (args', st'))
    (hwf : strWFNL args = true) :
    strWFNL args' = true := by
  unfold processSplit at h
  repeat' split at h
  all_goals simp at h
  all_goals try (obtain ⟨h1, -⟩ := h; (first | subst h1 | rw [h1]))
  all_goals simp only [strWFNL, strWFN, Bool.and_eq_true] at hwf ⊢
  all_goals first
    | exact ⟨map_setValue_strWF _ _ hwf.1, hwf.2⟩
    | (rename_i hbody9
       exact ⟨map_setValue_strWF _ _ hwf.1,
              nestedVisitSL_strWF _ _ _ _ _ _ hbody9 hwf.2.1, hwf.2.2⟩)

/-- The CallExpression visitor writes only string forms into value
slots. -/
theorem callAction_strWF {ctx : Ctx} {env : List String} {callee : Node}
    {args args' : List Node} {st st' : St}
    (h : callAction ctx env callee args st = .ok (args', st'))
    (hwf : strWFNL args = true) :
    strWFNL args' = true := by
  unfold callAction at h
  repeat' split at h
  all_goals try exact processSplit_strWF h hwf
  all_goals simp at h
  all_goals try (obtain ⟨h1, -⟩ := h; (first | subst h1 | rw [h1]))
  all_goals try exact hwf
  all_goals
    simp only [strWFNL, Bool.and_eq_true] at hwf ⊢
  all_goals
    exact ⟨by simpa [processResolve] using setValue_str_strWF _ _ hwf.1, hwf.2⟩

/-- A replaced identifier or member expression is a parsed literal, which
is string-well-formed. -/
theorem processReplaceable_strWF (ctx : Ctx) (n : Node) (hwf : strWFN n = true) :
    strWFN (processReplaceable ctx n) = true := by
  unfold processReplaceable
  split
  · simp [getParsedReplacement, strWFN]
  · exact hwf

mutual

/-- The main pass writes only string forms into value slots: a tree whose
string literals all carry strings keeps that property through the
transform. -/
theorem visitN_strWF (ctx : Ctx) (env : List String) (n : Node)
    (st : St) (n' : Node) (st' : St)
    (h : visitN ctx env n st = .ok (n', st'))
    (hwf : strWFN n = true) :
    strWFN n' = true := by
  cases n with
  | call callee args =>
    simp only [visitN] at h
    split at h
    · exact absurd h (by simp)
    · rename_i args₁ st₁ hact
      split at h
      · exact absurd h (by simp)
      · rename_i callee' st₂ hcallee
        split at h
        · exact absurd h (by simp)
        · rename_i args' st₃ hargs
          simp only [Except.ok.injEq, Prod.mk.injEq] at h
          obtain ⟨h1, -⟩ := h
          subst h1
          simp only [strWFN, Bool.and_eq_true] at hwf ⊢
          have esz := callAction_nsize hact
          have e3 := callAction_strWF hact hwf.2
          have e1 := visitN_strWF ctx env callee st₁ callee' st₂ hcallee hwf.1
          have e2 := visitNL_strWF ctx env args₁ st₂ args' st₃ hargs e3
          exact ⟨e1, e2⟩
  | ident name =>
    simp only [visitN, Except.ok.injEq, Prod.mk.injEq] at h
    obtain ⟨h1, -⟩ := h
    subst h1
    exact processReplaceable_strWF ctx (.ident name) hwf
  | member obj prop =>
    simp only [visitN] at h
    split at h
    · rename_i source hrepl
      simp only [Except.ok.injEq, Prod.mk.injEq] at h
      obtain ⟨h1, -⟩ := h
      subst h1
      simp [getParsedReplacement, strWFN]
    · split at h
      · exact absurd h (by simp)
      · rename_i obj' st₁ hobj
        split at h
        · exact absurd h (by simp)
        · rename_i prop' st₂ hprop
          simp only [Except.ok.injEq, Prod.mk.injEq] at h
          obtain ⟨h1, -⟩ := h
          subst h1
          simp only [strWFN, Bool.and_eq_true] at hwf ⊢
          exact ⟨visitN_strWF ctx env obj st obj' st₁ hobj hwf.1,
                 visitN_strWF ctx env prop st₁ prop' st₂ hprop hwf.2⟩
  | arrayExpr els =>
    simp only [visitN] at h
    split at h
    · exact absurd h (by simp)
    · rename_i els' st₁ hels
      simp only [Except.ok.injEq, Prod.mk.injEq] at h
      obtain ⟨h1, -⟩ := h
      subst h1
      simp only [strWFN] at hwf ⊢
      exact visitNL_strWF ctx env els st els' st₁ hels hwf
  | funcExpr params body =>
    simp only [visitN] at h
    split at h
    · exact absurd h (by simp)
    · rename_i body' st₁ hbody
      simp only [Except.ok.injEq, Prod.mk.injEq] at h
      obtain ⟨h1, -⟩ := h
      subst h1
      simp only [strWFN] at hwf ⊢
      exact visitSL_strWF ctx (params ++ declaredNames body ++ env) body st body' st₁ hbody hwf
  | stringLit v =>
    simp only [visitN, Except.ok.injEq, Prod.mk.injEq] at h
    obtain ⟨h1, -⟩ := h
    subst h1
    exact hwf
  | parsedLit s =>
    simp only [visitN, Except.ok.injEq, Prod.mk.injEq] at h
    obtain ⟨h1, -⟩ := h
    subst h1
    exact hwf
termination_by nsizeN n
decreasing_by
all_goals try subst_vars
all_goals simp only [nsizeN, nsizeNL, nsizeS, nsizeSL]
all_goals omega

/-- The main pass over sibling lists writes only string forms. -/
theorem visitNL_strWF (ctx : Ctx) (env : List String) (ns : List Node)
    (st : St) (ns' : List Node) (st' : St)
    (h : visitNL ctx env ns st = .ok (ns', st'))
    (hwf : strWFNL ns = true) :
    strWFNL ns' = true := by
  cases ns with
  | nil =>
    simp only [visitNL, Except.ok.injEq, Prod.mk.injEq] at h
    obtain ⟨h1, -⟩ := h
    subst h1
    exact hwf
  | cons n rest =>
    simp only [visitNL] at h
    split at h
    · exact absurd h (by simp)
    · rename_i n' st₁ hn
      split at h
      · exact absurd h (by simp)
      · rename_i rest' st₂ hrest
        simp only [Except.ok.injEq, Prod.mk.injEq] at h
        obtain ⟨h1, -⟩ := h
        subst h1
        simp only [strWFNL, Bool.and_eq_true] at hwf ⊢
        exact ⟨visitN_strWF ctx env n st n' st₁ hn hwf.1,
               visitNL_strWF ctx env rest st₁ rest' st₂ hrest hwf.2⟩
termination_by nsizeNL ns
decreasing_by
all_goals try subst_vars
all_goals simp only [nsizeN, nsizeNL, nsizeS, nsizeSL]
all_goals omega

/-- The main pass over one statement writes only string forms. -/
theorem visitS_strWF (ctx : Ctx) (env : List String) (s : Stmt)
    (st : St) (s' : Stmt) (st' : St)
    (h : visitS ctx env s st = .ok (s', st'))
    (hwf : strWFS s = true) :
    strWFS s' = true := by
  cases s with
  | importDecl source =>
    simp only [visitS] at h
    split at h
    · exact absurd h (by simp)
    · rename_i source' st₁ hs
      simp only [Except.ok.injEq, Prod.mk.injEq] at h
      obtain ⟨h1, -⟩ := h
      subst h1
      simp only [strWFS] at hwf ⊢
      have hres : strWFN (processResolve ctx source st).1 = true := by
        simpa [processResolve] using setValue_str_strWF source _ hwf
      exact visitN_strWF ctx env (processResolve ctx source st).1
        (processResolve ctx source st).2 source' st₁ hs hres
  | exprStmt e =>
    simp only [visitS] at h
    split at h
    · exact absurd h (by simp)
    · rename_i e' st₁ hs
      simp only [Except.ok.injEq, Prod.mk.injEq] at h
      obtain ⟨h1, -⟩ := h
      subst h1
      simp only [strWFS] at hwf ⊢
      exact visitN_strWF ctx env e st e' st₁ hs hwf
  | varDecl names inits =>
    simp only [visitS] at h
    split at h
    · exact absurd h (by simp)
    · rename_i inits' st₁ hs
      simp only [Except.ok.injEq, Prod.mk.injEq] at h
      obtain ⟨h1, -⟩ := h
      subst h1
      simp only [strWFS] at hwf ⊢
      exact visitNL_strWF ctx env inits st inits' st₁ hs hwf
termination_by nsizeS s
decreasing_by
all_goals try subst_vars
all_goals simp only [nsizeN, nsizeNL, nsizeS, nsizeSL, processResolve, setValue_nsize]
all_goals omega

/-- The main pass over statement lists writes only string forms. -/
theorem visitSL_strWF (ctx : Ctx) (env : List String) (ss : List Stmt)
    (st : St) (ss' : List Stmt) (st' : St)
    (h : visitSL ctx env ss st = .ok (ss', st'))
    (hwf : strWFSL ss = true) :
    strWFSL ss' = true := by
  cases ss with
  | nil =>
    simp only [visitSL, Except.ok.injEq, Prod.mk.injEq] at h
    obtain ⟨h1, -⟩ := h
    subst h1
    exact hwf
  | cons s rest =>
    simp only [visitSL] at h
    split at h
    · exact absurd h (by simp)
    · rename_i s' st₁ hs
      split at h
      · exact absurd h (by simp)
      · rename_i rest' st₂ hrest
        simp only [Except.ok.injEq, Prod.mk.injEq] at h
        obtain ⟨h1, -⟩ := h
        subst h1
        simp only [strWFSL, Bool.and_eq_true] at hwf ⊢
        exact ⟨visitS_strWF ctx env s st s' st₁ hs hwf.1,
               visitSL_strWF ctx env rest st₁ rest' st₂ hrest hwf.2⟩
termination_by nsizeSL ss
decreasing_by
all_goals try subst_vars
all_goals simp only [nsizeN, nsizeNL, nsizeS, nsizeSL]
all_goals omega

end

/-- C5: every rewrite the transform performs puts the string form of the
assigned identifier into the tree: processResolve overwrites a value slot
with request.id.toString() (second conjunct, the exact write), and a tree
whose string literals all carry string values — as every parsed tree does
— still does after the whole traversal, chunk extraction and nested
passes included, so no raw numeric identifier ever reaches the code
generator in a StringLiteral slot. -/
theorem rewritesKeepStringForm (ctx : Ctx) (prog prog' : List Stmt) (st st' : St)
    (h : runTraverse ctx prog st = .ok (prog', st'))
    (hwf : strWFSL prog = true) :
    strWFSL prog' = true
  ∧ (∀ (node : Node) (st₂ : St),
       (processResolve ctx node st₂).1
         = setValue node (.str (toString (mkRequest ctx (getValue node)).id))) :=
  ⟨visitSL_strWF ctx (declaredNames prog) prog st prog' st' h hwf,
   fun _ _ => rfl⟩

/-- C5 witness: the well-formedness is preserved on a concrete program
with an import, a require call and an ensure call. -/
theorem rewritesKeepStringForm_witness :
    ∃ prog' : List Stmt, ∃ st' : St,
      runTraverse ctxW
        [.importDecl (.stringLit (.str "./i")),
         .exprStmt (.call (.ident "require") [.stringLit (.str "./r")]),
         .exprStmt (.call (.member (.ident "require") (.ident "ensure"))
           [.arrayExpr [.stringLit (.str "a")]])]
        stW = .ok (prog', st')
      ∧ strWFSL prog' = true := by
  have h : runTraverse ctxW
      [.importDecl (.stringLit (.str "./i")),
       .exprStmt (.call (.ident "require") [.stringLit (.str "./r")]),
       .exprStmt (.call (.member (.ident "require") (.ident "ensure"))
         [.arrayExpr [.stringLit (.str "a")]])]
      stW
      = .ok ([.importDecl (.stringLit (.str "7")),
              .exprStmt (.call (.ident "require") [.stringLit (.str "7")]),
              .exprStmt (.call (.member (.ident "require") (.ident "ensure"))
                [.arrayExpr [.stringLit (.str "7")]])],
             { imports := [{ request := .str "./i", id := 7 },
                           { request := .str "./r", id := 7 }],
               chunks := [{ name := .str "5",
                            entry := [{ request := .str "a", id := 7 }],
                            imports := [] }],
               uid := 6 }) := by
    simp [runTraverse, declaredNames, visitSL, visitS, visitN_call, visitNL,
          visitN_stringLit, visitN_ident, visitN_member, visitN_arrayExpr,
          visitN_funcExpr, visitN_parsedLit, callAction, processSplit,
          splitChunkName, getNextUniqueID, processResolve, processReplaceable,
          lookupVar, RESOLVE_NAMES, RESOLVE_NAMES_SENSITIVE, RESOLVE_NAMES_CHUNK,
          getName, nodeType, expectedArgType, mkRequest, getValue, setValue,
          ctxW, stW, toStringSeven, toStringFive]
  exact ⟨_, _, h,
    (rewritesKeepStringForm ctxW _ _ stW _ h rfl).1⟩

/-- A call whose flattened callee name is not recognized takes no visitor
action. -/
theorem callAction_not_recognized {ctx : Ctx} {env : List String} {callee : Node}
    {args : List Node} {st : St}
    (h : RESOLVE_NAMES.contains (getName callee) = false) :
    callAction ctx env callee args st = .ok (args, st) := by
  have h9 : getName callee ∉ RESOLVE_NAMES := by simpa using h
  unfold callAction
  simp [h9]

mutual

/-- On an expression with no recognized call and no replaceable name, the
pass is the identity — whatever the scope env and state. -/
theorem visitN_id (ctx : Ctx) (n : Node) (hu : untriggeredN ctx n = true) :
    ∀ (env : List String) (st : St), visitN ctx env n st = .ok (n, st) := by
  cases n with
  | call callee args =>
    intro env st
    simp only [untriggeredN, Bool.and_eq_true] at hu
    obtain ⟨⟨h1, h2⟩, h3⟩ := hu
    have hc : RESOLVE_NAMES.contains (getName callee) = false := by simpa using h1
    simp only [visitN_call, callAction_not_recognized hc,
               visitN_id ctx callee h2, visitNL_id ctx args h3]
  | ident name =>
    intro env st
    simp only [untriggeredN, Option.isNone_iff_eq_none] at hu
    rw [visitN_ident]
    simp [processReplaceable, getName, hu]
  | member obj prop =>
    intro env st
    simp only [untriggeredN, Bool.and_eq_true, Option.isNone_iff_eq_none] at hu
    obtain ⟨⟨h1, h2⟩, h3⟩ := hu
    simp only [visitN_member, h1, visitN_id ctx obj h2, visitN_id ctx prop h3]
  | arrayExpr els =>
    intro env st
    simp only [untriggeredN] at hu
    simp only [visitN_arrayExpr, visitNL_id ctx els hu]
  | funcExpr params body =>
    intro env st
    simp only [untriggeredN, Bool.and_eq_true] at hu
    simp only [visitN_funcExpr, visitSL_id ctx body hu.2]
  | stringLit v =>
    intro env st
    exact visitN_stringLit ctx env v st
  | parsedLit s =>
    intro env st
    exact visitN_parsedLit ctx env s st
termination_by nsizeN n
decreasing_by
all_goals try subst_vars
all_goals simp only [nsizeN, nsizeNL, nsizeS, nsizeSL]
all_goals omega

/-- Identity of the pass on untriggered sibling lists. -/
theorem visitNL_id (ctx : Ctx) (ns : List Node) (hu : untriggeredNL ctx ns = true) :
    ∀ (env : List String) (st : St), visitNL ctx env ns st = .ok (ns, st) := by
  cases ns with
  | nil =>
    intro env st
    simp [visitNL]
  | cons n rest =>
    intro env st
    simp only [untriggeredNL, Bool.and_eq_true] at hu
    simp only [visitNL, visitN_id ctx n hu.1, visitNL_id ctx rest hu.2]
termination_by nsizeNL ns
decreasing_by
all_goals try subst_vars
all_goals simp only [nsizeN, nsizeNL, nsizeS, nsizeSL]
all_goals omega

/-- Identity of the pass on an untriggered statement. -/
theorem visitS_id (ctx : Ctx) (s : Stmt) (hu : untriggeredS ctx s = true) :
    ∀ (env : List String) (st : St), visitS ctx env s st = .ok (s, st) := by
  cases s with
  | importDecl source =>
    exact absurd hu (by simp [untriggeredS])
  | exprStmt e =>
    intro env st
    simp only [untriggeredS] at hu
    simp only [visitS, visitN_id ctx e hu]
  | varDecl names inits =>
    intro env st
    simp only [untriggeredS, Bool.and_eq_true] at hu
    simp only [visitS, visitNL_id ctx inits hu.2]
termination_by nsizeS s
decreasing_by
all_goals try subst_vars
all_goals simp only [nsizeN, nsizeNL, nsizeS, nsizeSL]
all_goals omega

/-- Identity of the pass on untriggered statement lists. -/
theorem visitSL_id (ctx : Ctx) (ss : List Stmt) (hu : untriggeredSL ctx ss = true) :
    ∀ (env : List String) (st : St), visitSL ctx env ss st = .ok (ss, st) := by
  cases ss with
  | nil =>
    intro env st
    simp [visitSL]
  | cons s rest =>
    intro env st
    simp only [untriggeredSL, Bool.and_eq_true] at hu
    simp only [visitSL, visitS_id ctx s hu.1, visitSL_id ctx rest hu.2]
termination_by nsizeSL ss
decreasing_by
all_goals try subst_vars
all_goals simp only [nsizeN, nsizeNL, nsizeS, nsizeSL]
all_goals omega

end

/-- C9: on a file in which nothing remains for the transform to act on —
no import declaration, no call to a recognized name, no identifier or
member expression matching the replacement table — the loader returns an
empty import list, an empty chunk list, and the program unchanged (so the
generated output differs from the input only by the external generator's
formatting). -/
theorem cleanOutputFixpoint (ctx : Ctx) (contents relPath : String)
    (prog : List Stmt) (uid0 : Nat)
    (h : untriggeredSL ctx prog = true) :
    loader ctx contents relPath (.parsed prog) uid0
      = .result { chunks := [], imports := [], program := prog } := by
  simp only [loader, runTraverse, visitSL_id ctx prog h]

/-- C9 witness: a concrete clean program (an unrecognized call and a bare
identifier) passes through unchanged. -/
theorem cleanOutputFixpoint_witness :
    loader ctxW "foo(\x22x\x22); bar;" "clean.js"
        (.parsed [.exprStmt (.call (.ident "foo") [.stringLit (.str "x")]),
                  .exprStmt (.ident "bar")]) 0
      = .result { chunks := [], imports := [],
                  program := [.exprStmt (.call (.ident "foo") [.stringLit (.str "x")]),
                              .exprStmt (.ident "bar")] } := by
  apply cleanOutputFixpoint
  simp [untriggeredSL, untriggeredS, untriggeredN, untriggeredNL,
        RESOLVE_NAMES, getName, lookupVar, ctxW]

/-- C10 counterexample: an alias call with no argument at all does not
trigger resolution with an undefined raw path — evaluating
`arguments[0].value` throws a TypeError, so the nested pass aborts. -/
theorem splitUncheckedValues_counterexample :
    nestedVisitN ctxW "req" (.call (.ident "req") []) [] = .error .typeError := by
  rw [nestedVisitN_call_err]
  rfl

/-- C10 as amended: inside processSplit no string-literal check guards the
resolution capability: a non-literal array element is resolved with the
undefined value read from its value slot (and recorded as the chunk's
entry), and an alias call whose first argument is present but non-literal
is likewise resolved with undefined; but an alias call with no argument
throws a TypeError (reading .value of undefined) instead of triggering
resolution. -/
theorem splitUncheckedValues (ctx : Ctx) (st : St) (el a : Node)
    (aliasName : String) (rest : List Node) (acc : List FileImport)
    (hel : ∀ v, el ≠ .stringLit v) (ha : ∀ v, a ≠ .stringLit v) :
    processSplit ctx [.arrayExpr [el]] st
      = .ok ([.arrayExpr [el]],
             { st with uid := st.uid + 1,
                       chunks := st.chunks
                         ++ [{ name := .str (toString st.uid),
                               entry := [{ request := .undefined, id := ctx.resolve .undefined }],
                               imports := [] }] })
  ∧ nestedAction ctx aliasName (.ident aliasName) (a :: rest) acc
      = .ok (a :: rest, acc ++ [{ request := .undefined, id := ctx.resolve .undefined }])
  ∧ nestedAction ctx aliasName (.ident aliasName) [] acc = .error .typeError := by
  have hval : getValue el = .undefined := by
    cases el with
    | stringLit v => exact absurd rfl (hel v)
    | _ => rfl
  have hset : ∀ w, setValue el w = el := by
    intro w
    cases el with
    | stringLit v => exact absurd rfl (hel v)
    | _ => rfl
  have haval : getValue a = .undefined := by
    cases a with
    | stringLit v => exact absurd rfl (ha v)
    | _ => rfl
  have haset : ∀ w, setValue a w = a := by
    intro w
    cases a with
    | stringLit v => exact absurd rfl (ha v)
    | _ => rfl
  refine ⟨?_, ?_, ?_⟩
  · unfold processSplit
    simp [splitChunkName, getNextUniqueID, mkRequest, hval, hset]
  · unfold nestedAction
    simp [calleeName, mkRequest, haval, haset]
  · unfold nestedAction
    simp [calleeName]

/-- C10 witness: a concrete identifier element and a concrete identifier
argument are resolved with undefined. -/
theorem splitUncheckedValues_witness :
    processSplit ctxW [.arrayExpr [.ident "dynamic"]] stW
      = .ok ([.arrayExpr [.ident "dynamic"]],
             { imports := [], uid := 6,
               chunks := [{ name := .str "5",
                            entry := [{ request := .undefined, id := 7 }],
                            imports := [] }] })
  ∧ nestedAction ctxW "req" (.ident "req") [.ident "x"] []
      = .ok ([.ident "x"], [{ request := .undefined, id := 7 }]) := by
  have h := splitUncheckedValues ctxW stW (.ident "dynamic") (.ident "x") "req" [] []
    (fun v h => by cases h) (fun v h => by cases h)
  exact ⟨h.1, h.2.1⟩

end Pundle
